import Mathlib

set_option maxRecDepth 8000

/-!
Verification of the quiz extraction, codec and dispatch core of the
IshraqatFajrQuizBot repository.  The Python functions of src/utils.py are
shallowly embedded as computable Lean functions over lists of characters,
and the specification claims are settled against those definitions.
-/

/-- Character strings are modelled as lists of characters. -/
abbrev Str := List Char

/-- ASCII whitespace: the characters matched by the whitespace class of the
Python regexes in src/utils.py and stripped by the str.strip method. -/
def isWs (c : Char) : Bool :=
  c = ' ' || c = '\t' || c = '\n' || c = '\r' || c = '\x0b' || c = '\x0c'

/-- ASCII decimal digit, the Python regex digit class. -/
def isDigitC (c : Char) : Bool := 97 ≤ c.toNat + 49 && c.toNat ≤ 57

/-- Lowercase ASCII letter, the regex class of letters a to z. -/
def isLowerAZ (c : Char) : Bool := 97 ≤ c.toNat && c.toNat ≤ 122

/-- Uppercase ASCII letter, the regex class of letters A to Z. -/
def isUpperAZ (c : Char) : Bool := 65 ≤ c.toNat && c.toNat ≤ 90

/-- Any ASCII letter, the regex class of letters of either case. -/
def isAlphaAZ (c : Char) : Bool := isLowerAZ c || isUpperAZ c

/-- Python str.lower restricted to one ASCII character. -/
def lowerC (c : Char) : Char :=
  if isUpperAZ c then Char.ofNat (c.toNat + 32) else c

/-- Python str.strip with no argument: drop whitespace from both ends. -/
def strip (l : Str) : Str :=
  ((l.dropWhile isWs).reverse.dropWhile isWs).reverse

/-- Decimal rendering of a natural number, as Python str of an int. -/
def natToStr (n : Nat) : Str := Nat.toDigits 10 n

/-! ### The clean-up pre-pass of extract_questions_from_text

Lines 81 and 82 of src/utils.py apply two substitutions to the input text:
first every run of three or more newlines is replaced by two newlines, then
every CRLF pair is replaced by LF.  Both are embedded as left-to-right scans
with exactly the replacement semantics of the Python re.sub calls. -/

/-- Replacement text for a pending run of newline characters: a run of three
or more is emitted as exactly two, shorter runs are emitted unchanged. -/
def emitNl (n : Nat) : Str := if 3 ≤ n then ['\n', '\n'] else List.replicate n '\n'

/-- Scanner for the substitution collapsing newline runs; the accumulator
counts the pending consecutive newline characters. -/
def collapseGo : Nat → Str → Str
  | p, [] => emitNl p
  | p, c :: rest =>
    if c = '\n' then collapseGo (p + 1) rest else emitNl p ++ c :: collapseGo 0 rest

/-- Embedding of the substitution replacing runs of three or more newlines
with two newlines (line 81 of src/utils.py). -/
def collapseNl (l : Str) : Str := collapseGo 0 l

/-- Embedding of the substitution replacing CRLF with LF (line 82). -/
def crlfSub : Str → Str
  | [] => []
  | [c] => [c]
  | c :: d :: rest =>
    if c = '\r' ∧ d = '\n' then '\n' :: crlfSub rest
    else c :: crlfSub (d :: rest)

/-- The clean-up pre-pass of extract_questions_from_text: newline-run collapse
first, CRLF unification second, in the order the source applies them. -/
def normalizeText (l : Str) : Str := crlfSub (collapseNl l)

/-- Checker for the absence of three consecutive newline characters. -/
def noTripleNl : Str → Bool
  | a :: b :: c :: rest =>
    !(a = '\n' && b = '\n' && c = '\n') && noTripleNl (b :: c :: rest)
  | _ => true

theorem noTripleNl_tail {x : Char} {l : Str} (h : noTripleNl (x :: l) = true) :
    noTripleNl l = true := by
  match l with
  | [] => rfl
  | [_] => rfl
  | a :: b :: t =>
    have := (Bool.and_eq_true _ _).mp h
    exact this.2

theorem noTripleNl_suffix {a l : Str} (h : noTripleNl (a ++ l) = true) :
    noTripleNl l = true := by
  induction a with
  | nil => exact h
  | cons x xs ih => exact ih (noTripleNl_tail h)

theorem noTripleNl_cons {c : Char} {l : Str} (hc : c ≠ '\n')
    (h : noTripleNl l = true) : noTripleNl (c :: l) = true := by
  match l with
  | [] => rfl
  | [_] => rfl
  | a :: b :: t =>
    show (!(c = '\n' && _ && _) && noTripleNl (a :: b :: t)) = true
    simp only [Bool.and_eq_true, Bool.not_eq_true']
    refine ⟨?_, h⟩
    simp [hc]

theorem noTripleNl_emit_prepend {p : Nat} {l : Str} (hp : p ≤ 2)
    (hl : noTripleNl l = true)
    (hhead : ∀ c l2, l = c :: l2 → c ≠ '\n') :
    noTripleNl (List.replicate p '\n' ++ l) = true := by
  interval_cases p
  · exact hl
  · match l, hl with
    | [], _ => rfl
    | [c], _ => rfl
    | a :: b :: t, hl =>
      have ha : a ≠ '\n' := hhead a (b :: t) rfl
      show (!('\n' = '\n' && a = '\n' && b = '\n') && _) = true
      simp only [Bool.and_eq_true, Bool.not_eq_true']
      exact ⟨by simp [ha], hl⟩
  · match l, hl with
    | [], _ => rfl
    | c :: t, hl =>
      have hc : c ≠ '\n' := hhead c t rfl
      show (!('\n' = '\n' && '\n' = '\n' && c = '\n') &&
        noTripleNl ('\n' :: c :: t)) = true
      simp only [Bool.and_eq_true, Bool.not_eq_true']
      refine ⟨by simp [hc], ?_⟩
      match t, hl with
      | [], _ => rfl
      | b :: t2, hl =>
        show (!('\n' = '\n' && c = '\n' && b = '\n') && noTripleNl (c :: b :: t2)) = true
        simp only [Bool.and_eq_true, Bool.not_eq_true']
        exact ⟨by simp [hc], hl⟩

theorem noTripleNl_emitNl {p : Nat} : noTripleNl (emitNl p) = true := by
  unfold emitNl
  split
  · rfl
  · next h =>
    have hp : p ≤ 2 := by omega
    interval_cases p <;> rfl

/-- The output of the newline-collapse scanner never has three consecutive
newlines. -/
theorem noTripleNl_collapseGo (l : Str) : ∀ p, noTripleNl (collapseGo p l) = true := by
  induction l with
  | nil => intro p; exact noTripleNl_emitNl
  | cons c rest ih =>
    intro p
    by_cases hc : c = '\n'
    · simp only [collapseGo, hc, if_pos rfl]
      exact ih (p + 1)
    · simp only [collapseGo, if_neg hc]
      have h2 : noTripleNl (c :: collapseGo 0 rest) = true :=
        noTripleNl_cons hc (ih 0)
      by_cases h3 : 3 ≤ p
      · show noTripleNl (emitNl p ++ _) = true
        have : emitNl p = List.replicate 2 '\n' := by simp [emitNl, h3]
        rw [this]
        exact noTripleNl_emit_prepend (by omega) h2 (by intro d l2 he; cases he; exact hc)
      · have : emitNl p = List.replicate p '\n' := by simp [emitNl, h3]
        rw [this]
        exact noTripleNl_emit_prepend (by omega) h2 (by intro d l2 he; cases he; exact hc)

/-- On text with no three consecutive newlines the collapse scanner is the
identity. -/
theorem collapseGo_id (l : Str) : ∀ p, p ≤ 2 →
    noTripleNl (List.replicate p '\n' ++ l) = true →
    collapseGo p l = List.replicate p '\n' ++ l := by
  induction l with
  | nil =>
    intro p hp _
    simp only [collapseGo, emitNl, List.append_nil]
    split
    · omega
    · rfl
  | cons c rest ih =>
    intro p hp h
    by_cases hc : c = '\n'
    · subst hc
      have hrepl : List.replicate p '\n' ++ '\n' :: rest =
          List.replicate (p + 1) '\n' ++ rest := by
        rw [List.replicate_succ']
        simp
      have hp1 : p + 1 ≤ 2 := by
        by_contra hgt
        have hpe : p = 2 := by omega
        subst hpe
        simp [List.replicate, noTripleNl] at h
      simp only [collapseGo, if_pos rfl]
      rw [hrepl] at h ⊢
      exact ih (p + 1) hp1 h
    · simp only [collapseGo, if_neg hc]
      have hrest : noTripleNl rest = true := by
        have h1 : noTripleNl (c :: rest) = true :=
          noTripleNl_suffix (a := List.replicate p '\n') h
        exact noTripleNl_tail h1
      have : emitNl p = List.replicate p '\n' := by
        simp [emitNl]
        omega
      rw [this, ih 0 (by omega) hrest]
      simp

/-- The newline-collapse substitution is idempotent. -/
theorem collapseNl_idem (l : Str) : collapseNl (collapseNl l) = collapseNl l := by
  unfold collapseNl
  have h := noTripleNl_collapseGo l 0
  have := collapseGo_id (collapseGo 0 l) 0 (by omega) (by simpa using h)
  simpa using this

theorem crlfSub_id : ∀ {l : Str}, '\r' ∉ l → crlfSub l = l
  | [], _ => rfl
  | [_], _ => rfl
  | c :: d :: rest, h => by
    have hc : c ≠ '\r' := fun he => h (he ▸ List.mem_cons_self c (d :: rest))
    have h2 : '\r' ∉ d :: rest := fun hm => h (List.mem_cons_of_mem c hm)
    simp only [crlfSub]
    rw [if_neg (by rintro ⟨h1, _⟩; exact hc h1)]
    rw [crlfSub_id h2]

theorem collapseGo_mem {c : Char} : ∀ (l : Str) (p : Nat),
    c ∈ collapseGo p l → c = '\n' ∨ c ∈ l := by
  intro l
  induction l with
  | nil =>
    intro p h
    simp only [collapseGo] at h
    unfold emitNl at h
    split at h
    · simp at h; exact Or.inl h
    · rw [List.eq_of_mem_replicate h]; exact Or.inl rfl
  | cons d rest ih =>
    intro p h
    simp only [collapseGo] at h
    split at h
    · rcases ih (p + 1) h with h1 | h1
      · exact Or.inl h1
      · exact Or.inr (List.mem_cons_of_mem d h1)
    · rcases List.mem_append.mp h with h1 | h1
      · unfold emitNl at h1
        split at h1
        · simp at h1; exact Or.inl h1
        · rw [List.eq_of_mem_replicate h1]; exact Or.inl rfl
      · rcases List.mem_cons.mp h1 with h2 | h2
        · exact Or.inr (h2 ▸ List.mem_cons_self d rest)
        · rcases ih 0 h2 with h3 | h3
          · exact Or.inl h3
          · exact Or.inr (List.mem_cons_of_mem d h3)

theorem collapseNl_no_cr {l : Str} (h : '\r' ∉ l) : '\r' ∉ collapseNl l := by
  intro hm
  rcases collapseGo_mem l 0 hm with h1 | h1
  · exact absurd h1 (by decide)
  · exact h h1

/-- C8, counterexample: the clean-up pre-pass of extraction is not idempotent.
On the text CRLF CRLF CRLF the first pass yields three newlines (the newline
collapse runs before CRLF unification, so it sees no newline run), and the
second pass collapses them to two. -/
theorem c8_counterexample :
    normalizeText (normalizeText ("\r\n\r\n\r\n".toList)) ≠
      normalizeText ("\r\n\r\n\r\n".toList) := by
  decide

/-- C8, amended: on input containing no carriage return the pre-pass (newline
run collapse followed by CRLF unification, with no space collapsing) is
idempotent. -/
theorem c8_amended {t : Str} (h : '\r' ∉ t) :
    normalizeText (normalizeText t) = normalizeText t := by
  unfold normalizeText
  rw [crlfSub_id (collapseNl_no_cr h)]
  rw [crlfSub_id (collapseNl_no_cr (l := collapseNl t) (collapseNl_no_cr h))]
  exact collapseNl_idem t

/-- C8, witness: the amended statement applied to a concrete carriage-return
free text with a four-newline run. -/
theorem c8_witness :
    ('\r' ∉ ("a\n\n\n\nb".toList)) ∧
      normalizeText (normalizeText ("a\n\n\n\nb".toList)) =
        normalizeText ("a\n\n\n\nb".toList) :=
  ⟨by decide, c8_amended (by decide)⟩

/-! ### Data model

Extracted questions are the dictionaries built by extract_questions_from_text;
quiz objects passed to the codec expose question text, option texts and an
optional correct-option index (the aiogram Poll capability the code reads). -/

/-- An extracted question dictionary, as appended at lines 167 and 240 of
src/utils.py. -/
structure QDict where
  question_num : Str
  question : Str
  options : List Str
  correct_option_id : Nat
deriving DecidableEq

/-- A quiz value as consumed by format_quiz_as_text: question text, option
texts, and the optional correct_option_id attribute (a non-negative index in
the Telegram API). -/
structure PollQ where
  question : Str
  options : List Str
  correct_option_id : Option Nat
deriving DecidableEq

/-! ### Dispatcher: send_telegram_quizzes (src/utils.py lines 260 to 302) -/

/-- The regex matching a pre-existing leading numbering token: one or more
digits, a dot, then one whitespace character; returns the matched length. -/
def matchLeadNum (q : Str) : Option Nat :=
  let ds := q.takeWhile isDigitC
  if ds.isEmpty then none
  else match q.drop ds.length with
    | '.' :: c :: _ => if isWs c then some (ds.length + 2) else none
    | _ => none

/-- The numbered question text for 1-based position i: prefix the new number
when no leading token exists, otherwise replace the leading token. -/
def numberQuestion (i : Nat) (q : Str) : Str :=
  match matchLeadNum q with
  | none => natToStr i ++ '.' :: ' ' :: q
  | some k => natToStr i ++ '.' :: ' ' :: q.drop k

/-- The question texts as sent, with the sequential display numbers the
dispatch loop prefixes (enumerate starting at 1). -/
def numberedQuestions (qs : List QDict) : List Str :=
  qs.enum.map (fun p => numberQuestion (p.1 + 1) p.2.question)

/-- Embedding of send_telegram_quizzes.  The messaging collaborator is
abstracted by a predicate giving for each 1-based position whether the poll
send succeeds; the function returns the tuple of sent count, error count and
failed question labels exactly as the source loop accumulates them. -/
def send_telegram_quizzes (ok : Nat → Bool) (questions : List QDict) :
    Nat × Nat × List Str :=
  questions.enum.foldl
    (fun acc p =>
      if ok (p.1 + 1) then (acc.1 + 1, acc.2.1, acc.2.2)
      else (acc.1, acc.2.1 + 1, acc.2.2 ++ [p.2.question_num]))
    (0, 0, [])

/-! ### Codec: format_quiz_as_text (src/utils.py lines 304 to 342) -/

/-- Option letter for index i: chr of 97 plus i. -/
def letterOf (i : Nat) : Char := Char.ofNat (97 + i)

/-- The fallible body of format_quiz_as_text: header, one line per option,
then the answer line.  The failing step is indexing the option list with an
out-of-range correct_option_id, an IndexError in the source. -/
def tryFormatQuiz (quiz : PollQ) (question_num : Option Nat) : Option Str :=
  let pre : Str := match question_num with
    | some n => natToStr n ++ '.' :: ' ' :: []
    | none => []
  let header := pre ++ quiz.question ++ ['\n']
  let body := header ++
    (quiz.options.enum.map (fun p => letterOf p.1 :: ')' :: ' ' :: (p.2 ++ ['\n']))).flatten
  match quiz.correct_option_id with
  | none => some (body ++ "Answer: Not provided".toList)
  | some ci =>
    match quiz.options[ci]? with
    | none => none
    | some opt => some (body ++ "Answer: ".toList ++ letterOf ci :: ')' :: ' ' :: opt)

/-- Embedding of format_quiz_as_text: the try/except wrapper returns the
literal error string when the body raises. -/
def format_quiz_as_text (quiz : PollQ) (question_num : Option Nat) : Str :=
  (tryFormatQuiz quiz question_num).getD ("Error formatting quiz".toList)

/-- The final line of a text: the suffix after the last newline. -/
def lastLine (l : Str) : Str := (l.reverse.takeWhile (fun c => c != '\n')).reverse

theorem takeWhile_append_all {p : Char → Bool} {a b : Str}
    (h : ∀ c ∈ a, p c = true) :
    (a ++ b).takeWhile p = a ++ b.takeWhile p := by
  induction a with
  | nil => rfl
  | cons x xs ih =>
    have hx : p x = true := h x (List.mem_cons_self x xs)
    simp only [List.cons_append, List.takeWhile_cons, hx, if_true]
    rw [ih (fun c hc => h c (List.mem_cons_of_mem x hc))]

theorem lastLine_snoc_nl (x ans : Str) (hans : ∀ c ∈ ans, c ≠ '\n') :
    lastLine ((x ++ ['\n']) ++ ans) = ans := by
  unfold lastLine
  rw [List.reverse_append, List.reverse_append]
  have h1 : (ans.reverse ++ (['\n'].reverse ++ x.reverse)).takeWhile (fun c => c != '\n') =
      ans.reverse ++ (['\n'].reverse ++ x.reverse).takeWhile (fun c => c != '\n') := by
    apply takeWhile_append_all
    intro c hc
    have := hans c (List.mem_reverse.mp hc)
    simpa using this
  rw [h1]
  simp [List.takeWhile_cons]

/-- Joined line lists where every line ends with a newline end with a newline
themselves (or are empty). -/
theorem join_lines_snoc (lines : List Str)
    (h : ∀ ln ∈ lines, ∃ y, ln = y ++ ['\n']) :
    lines.flatten = [] ∨ ∃ z, lines.flatten = z ++ ['\n'] := by
  induction lines with
  | nil => exact Or.inl rfl
  | cons ln rest ih =>
    rcases ih (fun l hl => h l (List.mem_cons_of_mem ln hl)) with h1 | h1
    · rcases h ln (List.mem_cons_self ln rest) with ⟨y, hy⟩
      right
      refine ⟨y, ?_⟩
      simp [List.flatten, h1, hy]
    · rcases h1 with ⟨z, hz⟩
      right
      refine ⟨ln ++ z, ?_⟩
      simp [List.flatten, hz]

theorem body_snoc_nl (quiz : PollQ) (pre : Str) :
    ∃ z, (pre ++ quiz.question ++ ['\n']) ++
      (quiz.options.enum.map (fun p => letterOf p.1 :: ')' :: ' ' :: (p.2 ++ ['\n']))).flatten
        = z ++ ['\n'] := by
  rcases join_lines_snoc (quiz.options.enum.map
      (fun p => letterOf p.1 :: ')' :: ' ' :: (p.2 ++ ['\n'])))
      (by
        intro ln hln
        rcases List.mem_map.mp hln with ⟨p, _, hp⟩
        exact ⟨letterOf p.1 :: ')' :: ' ' :: p.2, by rw [← hp]; simp⟩) with h | h
  · exact ⟨pre ++ quiz.question, by rw [h]; simp⟩
  · rcases h with ⟨z, hz⟩
    exact ⟨(pre ++ quiz.question ++ ['\n']) ++ z, by rw [hz]; simp⟩

/-- C7: encoding the quiz of Scenario E yields exactly the canonical text,
and for every quiz whose correct-option index is absent the final line of
the encoding is exactly the literal text Answer: Not provided. -/
theorem c7_codec :
    format_quiz_as_text
        ⟨"Capital of France?".toList, ["Paris".toList, "Lyon".toList], some 0⟩ none
      = "Capital of France?\na) Paris\nb) Lyon\nAnswer: a) Paris".toList ∧
    ∀ (q : PollQ) (n : Option Nat), q.correct_option_id = none →
      lastLine (format_quiz_as_text q n) = "Answer: Not provided".toList := by
  constructor
  · decide
  · intro q n h
    unfold format_quiz_as_text tryFormatQuiz
    rw [h]
    simp only [Option.getD_some]
    rcases body_snoc_nl q (match n with
      | some m => natToStr m ++ '.' :: ' ' :: []
      | none => []) with ⟨z, hz⟩
    rw [hz]
    exact lastLine_snoc_nl z ("Answer: Not provided".toList) (by decide)

/-- C7, witness: the final-line statement applied to a concrete quiz with no
correct-option index. -/
theorem c7_witness :
    (PollQ.mk ("Q?".toList) ["A".toList, "B".toList] none).correct_option_id = none ∧
      lastLine (format_quiz_as_text
          (PollQ.mk ("Q?".toList) ["A".toList, "B".toList] none) none) =
        "Answer: Not provided".toList :=
  ⟨rfl, c7_codec.2 (PollQ.mk ("Q?".toList) ["A".toList, "B".toList] none) none rfl⟩

/-- C10: the encode operation never propagates a failure: its value is either
the rendering of a successful body or the literal error string, and for a
correct-option index at or beyond the length of the option list it is
exactly the literal error string. -/
theorem c10_no_exception :
    (∀ (q : PollQ) (n : Option Nat),
        format_quiz_as_text q n = "Error formatting quiz".toList ∨
        tryFormatQuiz q n = some (format_quiz_as_text q n)) ∧
    (∀ (q : PollQ) (n : Option Nat) (i : Nat), q.correct_option_id = some i →
        q.options.length ≤ i →
        format_quiz_as_text q n = "Error formatting quiz".toList) := by
  constructor
  · intro q n
    cases h : tryFormatQuiz q n with
    | none => left; simp [format_quiz_as_text, h]
    | some s => right; simp [format_quiz_as_text, h]
  · intro q n i h hlen
    have hnone : q.options[i]? = none := by
      rw [List.getElem?_eq_none_iff]
      exact hlen
    simp [format_quiz_as_text, tryFormatQuiz, h, hnone]

/-- C10, witness: a quiz whose correct-option index 5 exceeds its single
option renders as the literal error string. -/
theorem c10_witness :
    format_quiz_as_text (PollQ.mk ("Q".toList) [("A".toList)] (some 5)) none =
      "Error formatting quiz".toList :=
  c10_no_exception.2 (PollQ.mk ("Q".toList) [("A".toList)] (some 5)) none 5 rfl
    (by decide)

/-- Three valid questions whose stems carry no pre-existing numbering token. -/
def threeQs : List QDict :=
  [⟨['1'], "First?".toList, ["x".toList, "y".toList], 0⟩,
   ⟨['2'], "Second?".toList, ["x".toList, "y".toList], 0⟩,
   ⟨['3'], "Third?".toList, ["x".toList, "y".toList], 0⟩]

/-- C1, counterexample: dispatch numbering continues no per-destination
counter.  Dispatching three valid questions prefixes the display numbers
1, 2, 3; with a counter claimed to hold 5 the claim demands 5, 6, 7, which
the dispatch loop (enumerate starting at 1, reading no counter) never
produces. -/
theorem c1_counterexample :
    numberedQuestions threeQs =
      ["1. First?".toList, "2. Second?".toList, "3. Third?".toList] ∧
    numberedQuestions threeQs ≠
      ["5. First?".toList, "6. Second?".toList, "7. Third?".toList] := by
  constructor
  · decide
  · decide

theorem send_foldl_counts (ok : Nat → Bool) (l : List (Nat × QDict)) :
    ∀ acc : Nat × Nat × List Str,
      ((l.foldl (fun acc p =>
          if ok (p.1 + 1) then (acc.1 + 1, acc.2.1, acc.2.2)
          else (acc.1, acc.2.1 + 1, acc.2.2 ++ [p.2.question_num])) acc).1 +
        (l.foldl (fun acc p =>
          if ok (p.1 + 1) then (acc.1 + 1, acc.2.1, acc.2.2)
          else (acc.1, acc.2.1 + 1, acc.2.2 ++ [p.2.question_num])) acc).2.1) =
        acc.1 + acc.2.1 + l.length := by
  induction l with
  | nil => intro acc; simp
  | cons p rest ih =>
    intro acc
    simp only [List.foldl_cons, List.length_cons]
    by_cases hok : ok (p.1 + 1)
    · rw [if_pos hok, ih]
      simp only
      omega
    · rw [if_neg hok, ih]
      simp only
      omega

/-- C1, amended: within one dispatch call the display number prefixed at
0-based position i is always i + 1 — numbering restarts from 1 on every
call, independent of any counter — and every question is attempted exactly
once: the sent count plus the error count equals the number of questions. -/
theorem c1_amended (ok : Nat → Bool) (qs : List QDict) (i : Nat)
    (h : i < qs.length) :
    (∃ rest, (numberedQuestions qs).getD i [] =
        natToStr (i + 1) ++ '.' :: ' ' :: rest) ∧
    (send_telegram_quizzes ok qs).1 + (send_telegram_quizzes ok qs).2.1 =
      qs.length := by
  constructor
  · have hq : qs[i]? = some (qs.get ⟨i, h⟩) := List.getElem?_eq_getElem h
    set q := qs.get ⟨i, h⟩ with hqdef
    have : (numberedQuestions qs).getD i [] = numberQuestion (i + 1) q.question := by
      unfold numberedQuestions
      rw [List.getD_eq_getElem?_getD, List.getElem?_map, List.getElem?_enum, hq]
      rfl
    rw [this]
    unfold numberQuestion
    cases hm : matchLeadNum q.question with
    | none => exact ⟨q.question, rfl⟩
    | some k => exact ⟨q.question.drop k, rfl⟩
  · unfold send_telegram_quizzes
    rw [send_foldl_counts ok qs.enum (0, 0, [])]
    simp

/-- C1, witness: the amended statement at the concrete three-question batch,
position 1, with an always-succeeding collaborator. -/
theorem c1_witness :
    (1 < threeQs.length) ∧
    ((∃ rest, (numberedQuestions threeQs).getD 1 [] =
        natToStr 2 ++ '.' :: ' ' :: rest) ∧
      (send_telegram_quizzes (fun _ => true) threeQs).1 +
        (send_telegram_quizzes (fun _ => true) threeQs).2.1 = threeQs.length) :=
  ⟨by decide, c1_amended (fun _ => true) threeQs 1 (by decide)⟩

/-! ### Block splitting (src/utils.py line 94)

The split regex has two alternatives: a newline, a whitespace run, and a
newline (all consumed, the run greedy), or a single newline followed by a
lookahead for a digit-led question header. -/

/-- Index of the last newline inside the leading whitespace run: the greedy
end of the first alternative of the block-split regex. -/
def lastNlInWsRun (l : Str) : Option Nat :=
  ((l.takeWhile isWs).enum.filter (fun p => p.2 == '\n')).getLast? |>.map (·.1)

/-- The lookahead of the second alternative: one or more digits, an optional
dot, then one whitespace character. -/
def digitHeaderAhead (l : Str) : Bool :=
  let ds := l.takeWhile isDigitC
  if ds.isEmpty then false
  else match l.drop ds.length with
    | '.' :: c :: _ => isWs c
    | c :: _ => isWs c
    | [] => false

/-- Delimiter match at a newline: the first alternative consumes up to the
last newline of the following whitespace run (the returned count of
characters after the leading newline), the second consumes the newline
alone.  Alternatives are tried in the order of the source pattern. -/
def splitDelim (rest : Str) : Option Nat :=
  match lastNlInWsRun rest with
  | some k => some (k + 1)
  | none => if digitHeaderAhead rest then some 0 else none

/-- Scanner for the re.split of line 94: cut at each delimiter match,
preserving document order.  The first accumulator holds the current block
reversed; the counter skips the characters a delimiter consumed, keeping
the recursion structural. -/
def splitGo (acc : Str) : Nat → Str → List Str
  | n + 1, _ :: rest => splitGo acc n rest
  | _, [] => [acc.reverse]
  | 0, c :: rest =>
    if c = '\n' then
      match splitDelim rest with
      | some k => acc.reverse :: splitGo [] k rest
      | none => splitGo (c :: acc) 0 rest
    else splitGo (c :: acc) 0 rest

/-- Embedding of the block split. -/
def splitBlocks (l : Str) : List Str := splitGo [] 0 l

/-! ### Option-entry scanner

One regex (newline, letter of either case, closing parenthesis, whitespace
run, at least one non-newline character) backs both the screening count at
line 106 and the option findall at line 140 of src/utils.py. -/

/-- Index of the last non-newline character of a whitespace run, the greedy
backtrack target when nothing follows the run. -/
def lastNonNl (run : Str) : Option Nat :=
  (run.enum.filter (fun p => p.2 != '\n')).getLast? |>.map (·.1)

/-- Tail of one option-entry match, after the letter and parenthesis: the
greedy whitespace run followed by at least one non-newline character.
Returns the consumed length and the content group. -/
def optTail (l : Str) : Option (Nat × Str) :=
  let run := l.takeWhile isWs
  match l.drop run.length with
  | _ :: _ =>
    let grp := (l.drop run.length).takeWhile (fun c => c != '\n')
    some (run.length + grp.length, grp)
  | [] =>
    match lastNonNl run with
    | some k =>
      let grp := (l.drop k).takeWhile (fun c => c != '\n')
      some (k + grp.length, grp)
    | none => none

/-- Scanner for the option-entry regex: collect, in document order, each
letter with its content group, resuming after each match end (a failed
attempt at a newline resumes one character later, as re.findall does).
The counter skips the characters a match consumed, keeping the recursion
structural. -/
def scanOptionsGo : Nat → Str → List (Char × Str)
  | n + 1, _ :: rest => scanOptionsGo n rest
  | _, [] => []
  | 0, c :: rest =>
    if c = '\n' then
      match rest with
      | d :: ')' :: rest2 =>
        if isAlphaAZ d then
          match optTail rest2 with
          | some p => (d, p.2) :: scanOptionsGo (2 + p.1) rest
          | none => scanOptionsGo 0 rest
        else scanOptionsGo 0 rest
      | _ => scanOptionsGo 0 rest
    else scanOptionsGo 0 rest

/-- The option-entry scan of a whole text. -/
def scanOptions (l : Str) : List (Char × Str) := scanOptionsGo 0 l

/-! ### Answer-line search (line 111) -/

/-- Literal matcher: drop an expected prefix. -/
def dropLit : Str → Str → Option Str
  | [], l => some l
  | _ :: _, [] => none
  | c :: cs, d :: l => if c = d then dropLit cs l else none

/-- The optional leading star of the answer regex. -/
def dropStar (l : Str) : Str :=
  match l with
  | '*' :: rest => rest
  | _ => l

/-- The colon after the Answer word, allowing the optional plural s. -/
def answerColon (l2 : Str) : Option Str :=
  match l2 with
  | ':' :: r => some r
  | 's' :: ':' :: r => some r
  | _ => none

/-- The answer regex with its leading newline already consumed: optional
star, the word Answer, optionally plural, a colon, a whitespace run, then
the captured letter (the run is greedy, so the first non-whitespace
character after the colon must be the letter). -/
def matchAnswerAfterNl (l : Str) : Option Char :=
  match dropLit ("Answer".toList) (dropStar l) with
  | none => none
  | some l2 =>
    match answerColon l2 with
    | none => none
    | some r =>
      match r.dropWhile isWs with
      | c :: _ => if isAlphaAZ c then some c else none
      | [] => none

/-- First match of the answer-line regex over a block. -/
def findAnswer : Str → Option Char
  | [] => none
  | c :: rest =>
    if c = '\n' then
      match matchAnswerAfterNl rest with
      | some d => some d
      | none => findAnswer rest
    else findAnswer rest

/-! ### Leading question-number match (line 118) -/

/-- The regex for an optional leading number: anchored whitespace, digits,
an optional dot or closing parenthesis, trailing whitespace.  Returns the
digit group and the text after the match end. -/
def matchQNum (l : Str) : Option (Str × Str) :=
  let l1 := l.dropWhile isWs
  let ds := l1.takeWhile isDigitC
  if ds.isEmpty then none
  else
    let l2 := l1.drop ds.length
    let l3 := match l2 with
      | '.' :: r => r
      | ')' :: r => r
      | _ => l2
    some (ds, l3.dropWhile isWs)

/-! ### Options-start search (line 129) -/

/-- Index of the first match of the options-start regex: a newline followed
by a letter of either case and a closing parenthesis. -/
def findOptionsStart : Str → Option Nat
  | [] => none
  | c :: rest =>
    if c = '\n' then
      match rest with
      | d :: ')' :: _ =>
        if isAlphaAZ d then some 0 else (findOptionsStart rest).map (· + 1)
      | _ => (findOptionsStart rest).map (· + 1)
    else (findOptionsStart rest).map (· + 1)

/-! ### Stable sort by option letter (line 147) -/

/-- Stable insertion: the new element goes after existing elements whose
letter is not greater, as Python list.sort is stable. -/
def insertOpt (x : Char × Str) : List (Char × Str) → List (Char × Str)
  | [] => [x]
  | y :: l => if x.1 < y.1 then x :: y :: l else y :: insertOpt x l

/-- Python list.sort with the option letter as key. -/
def sortOptions (l : List (Char × Str)) : List (Char × Str) :=
  l.foldl (fun acc x => insertOpt x acc) []

/-! ### The primary extraction loop (lines 98 to 183) -/

/-- Mutable state of the extraction loop: accepted questions, the set of
seen question identifiers, and the skipped labels. -/
structure ExtState where
  questions : List QDict
  seen : List Str
  skipped : List Str
deriving DecidableEq

/-- The question label of a block: the captured digit group when the
leading-number regex matches, else the 1-based block index (line 119). -/
def questionNumOf (i : Nat) (block : Str) : Str :=
  match matchQNum block with
  | some p => p.1
  | none => natToStr (i + 1)

/-- The question text of a block: the text after the leading-number match,
stripped, or the whole stripped block (lines 122 to 126). -/
def questionTextOf (block : Str) : Str :=
  match matchQNum block with
  | some p => strip p.2
  | none => strip block

/-- The stripped options span of the question text, from the options-start
match (line 137). -/
def optionsTextOf (qt : Str) (idx : Nat) : Str := strip (qt.drop idx)

/-- Outcome of one block under the primary strategy: silently ignored (the
bare continue statements at lines 102 and 108), skipped with a label, or a
candidate question.  The body is a pure function of the block and its
index; the deduplication of lines 163 to 179 reads the mutable seen set and
is applied at the state level by processBlock. -/
inductive BlockOutcome where
  | silent : BlockOutcome
  | skipped : Str → BlockOutcome
  | accepted : QDict → BlockOutcome
deriving DecidableEq

/-- Lines 100 to 163 of src/utils.py for one block. -/
def blockOutcome (i : Nat) (block : Str) : BlockOutcome :=
  if strip block = [] then .silent
  else if (scanOptions block).length < 2 then .silent
  else
    match findAnswer block with
    | none => .skipped (natToStr (i + 1))
    | some ansChar =>
      let question_num := questionNumOf i block
      let question_text := questionTextOf block
      match findOptionsStart question_text with
      | none => .skipped question_num
      | some idx =>
        let pure_question := strip (question_text.take idx)
        let options_matches := scanOptions ('\n' :: optionsTextOf question_text idx)
        if options_matches.length < 2 then .skipped question_num
        else
          let options := (sortOptions options_matches).map (fun p => strip p.2)
          let correct_index : Int := ((lowerC ansChar).toNat : Int) - 97
          if correct_index < 0 ∨ (options_matches.length : Int) ≤ correct_index then
            .skipped question_num
          else if 0 ≤ correct_index ∧ correct_index < (options.length : Int) then
            .accepted ⟨question_num, pure_question, options, correct_index.toNat⟩
          else .skipped question_num

/-- Per-block processing of the primary extraction loop: the block outcome
applied to the state, with the duplicate check against the seen set (the
question identifier is the first fifty characters of the question text,
line 165). -/
def processBlock (st : ExtState) (i : Nat) (block : Str) : ExtState :=
  match blockOutcome i block with
  | .silent => st
  | .skipped lbl => { st with skipped := st.skipped ++ [lbl] }
  | .accepted q =>
    if q.question.take 50 ∈ st.seen then st
    else { st with questions := st.questions ++ [q],
                   seen := st.seen ++ [q.question.take 50] }

/-- The primary tier: fold the per-block processing over the enumerated
blocks of the cleaned text. -/
def primaryPass (text : Str) : ExtState :=
  (splitBlocks text).enum.foldl (fun st p => processBlock st p.1 p.2)
    ⟨[], [], []⟩

/-! ### The fallback tier (src/utils.py lines 185 to 256)

The three whole-document template patterns and the two option-splitting
patterns are DOTALL Python regexes with nested lazy quantifiers, embedded
here as abstract syntax trees run by a backtracking matcher with Python
preference order: concatenation and alternation left first, greedy
quantifiers longest first, lazy quantifiers shortest first.  A fuel
parameter bounds quantifier unrolling; every quantifier body of the
transcribed patterns consumes at least one character, so fuel linear in the
input length preserves the semantics. -/

/-- Regex abstract syntax: literal, character class (negated when the flag
is set), the DOTALL dot, sequencing, alternation, counted repetition
(greedy flag, lower bound, optional upper bound), capture group, positive
lookahead, and the end anchor of a pattern without MULTILINE. -/
inductive RE : Type where
  | eps : RE
  | ch : Char → RE
  | cls : Bool → List (Char × Char) → RE
  | dot : RE
  | seq : RE → RE → RE
  | alt : RE → RE → RE
  | rep : Bool → Nat → Option Nat → RE → RE
  | grp : Nat → RE → RE
  | look : RE → RE
  | eos : RE

/-- Character class membership by code-point ranges. -/
def inCls (ranges : List (Char × Char)) (c : Char) : Bool :=
  ranges.any (fun r => r.1.toNat ≤ c.toNat && c.toNat ≤ r.2.toNat)

/-- Captured groups: assoc list, most recent capture first. -/
abbrev Caps := List (Nat × Str)

/-- Backtracking matcher in continuation-passing style, returning the first
success in Python preference order.  Fuel bounds the recursion depth and is
spent on every step, keeping the recursion structural. -/
def reM : Nat → RE → Str → Caps → (Str → Caps → Option (Str × Caps)) →
    Option (Str × Caps)
  | 0, _, _, _, _ => none
  | f + 1, r, s, caps, k =>
    match r with
    | .eps => k s caps
    | .ch c =>
      match s with
      | c2 :: rest => if c2 = c then k rest caps else none
      | [] => none
    | .cls neg rs =>
      match s with
      | c2 :: rest => if inCls rs c2 ≠ neg then k rest caps else none
      | [] => none
    | .dot =>
      match s with
      | _ :: rest => k rest caps
      | [] => none
    | .seq a b => reM f a s caps (fun s2 caps2 => reM f b s2 caps2 k)
    | .alt a b =>
      match reM f a s caps k with
      | some res => some res
      | none => reM f b s caps k
    | .grp i a =>
      reM f a s caps (fun s2 caps2 => k s2 ((i, s.take (s.length - s2.length)) :: caps2))
    | .look a =>
      match reM f a s caps (fun s2 caps2 => some (s2, caps2)) with
      | some res => k s res.2
      | none => none
    | .eos => if s = [] ∨ s = ['\n'] then k s caps else none
    | .rep g lo hi a =>
      match lo with
      | n + 1 =>
        reM f a s caps (fun s2 caps2 => reM f (.rep g n (hi.map (· - 1)) a) s2 caps2 k)
      | 0 =>
        match hi with
        | some 0 => k s caps
        | _ =>
          if g then
            match reM f a s caps
                (fun s2 caps2 => reM f (.rep g 0 (hi.map (· - 1)) a) s2 caps2 k) with
            | some res => some res
            | none => k s caps
          else
            match k s caps with
            | some res => some res
            | none =>
              reM f a s caps
                (fun s2 caps2 => reM f (.rep g 0 (hi.map (· - 1)) a) s2 caps2 k)

/-- The tuple of the n capture groups of a match, unmatched groups empty, as
re.findall returns them. -/
def groupsOut (n : Nat) (caps : Caps) : List Str :=
  (List.range n).map (fun i => ((caps.lookup (i + 1)).getD []))

/-- Scan loop of re.findall: try an anchored match at each position, record
the group tuple and resume at the match end (one character further on an
empty match or a failure). -/
def reFindScan (r : RE) (n : Nat) (mf : Nat) : Nat → Str → List (List Str)
  | 0, _ => []
  | _ + 1, [] =>
    match reM mf r [] [] (fun s2 caps => some (s2, caps)) with
    | some (_, caps) => [groupsOut n caps]
    | none => []
  | f + 1, s@(_ :: rest) =>
    match reM mf r s [] (fun s2 caps => some (s2, caps)) with
    | some (s2, caps) =>
      if s2.length < s.length then groupsOut n caps :: reFindScan r n mf f s2
      else groupsOut n caps :: reFindScan r n mf f rest
    | none => reFindScan r n mf f rest

/-- Embedding of re.findall with DOTALL for a transcribed pattern with n
capture groups. -/
def reFindAll (r : RE) (n : Nat) (s : Str) : List (List Str) :=
  reFindScan r n (60 * s.length + 600) (s.length + 1) s

/-! ### Transcription of the five fallback patterns -/

/-- Sequencing of a pattern list. -/
def seqL (l : List RE) : RE := l.foldr RE.seq RE.eps

/-- Literal word. -/
def reLit (cs : Str) : RE := seqL (cs.map RE.ch)

/-- The whitespace class of the patterns. -/
def wsRE : RE := .cls false
  [(' ', ' '), ('\t', '\t'), ('\n', '\n'), ('\r', '\r'), ('\x0b', '\x0b'), ('\x0c', '\x0c')]

/-- Classes for digits and letters. -/
def digitRE : RE := .cls false [('0', '9')]

def lowerRE : RE := .cls false [('a', 'z')]

def upperRE : RE := .cls false [('A', 'Z')]

def alphaRE : RE := .cls false [('a', 'z'), ('A', 'Z')]

/-- Greedy star. -/
def reStarG (r : RE) : RE := .rep true 0 none r

/-- Lazy star. -/
def reStarL (r : RE) : RE := .rep false 0 none r

/-- Greedy plus. -/
def rePlusG (r : RE) : RE := .rep true 1 none r

/-- Greedy option. -/
def reOptG (r : RE) : RE := .rep true 0 (some 1) r

/-- The optional numbered prefix of the template patterns: group 1 of
digits, an optional dash or dot, a whitespace run. -/
def numPreRE : RE :=
  reOptG (seqL [.grp 1 (rePlusG digitRE), reOptG (.cls false [('-', '-'), ('.', '.')]),
    reStarG wsRE])

/-- Group 3 of the template patterns: a first option entry followed by one
to twenty further newline-led entries, with the given letter class and
separator. -/
def optsGroupRE (letterC : RE) (sep : Char) : RE :=
  .grp 3 (seqL [letterC, .ch sep, reStarG wsRE, reStarL .dot,
    .rep true 1 (some 20)
      (seqL [.ch '\n', letterC, .ch sep, reStarG wsRE, reStarL .dot])])

/-- The answer part of the template patterns: the Answer or Answers word
with optional star, a colon, whitespace, then group 4. -/
def answerRE (letterC : RE) : RE :=
  seqL [.alt (.seq (reOptG (.ch '*')) (reLit ("Answer".toList)))
      (seqL [reOptG (.ch '*'), reLit ("Answer".toList), reOptG (.ch 's')]),
    .ch ':', reStarG wsRE, .grp 4 letterC]

/-- First template pattern: lowercase options with closing parenthesis. -/
def pat1 : RE := seqL [numPreRE, .grp 2 (reStarL .dot), rePlusG (.ch '\n'),
  optsGroupRE lowerRE ')', rePlusG (.ch '\n'), answerRE lowerRE, reOptG (.ch ')')]

/-- Second template pattern: uppercase options with closing parenthesis. -/
def pat2 : RE := seqL [numPreRE, .grp 2 (reStarL .dot), rePlusG (.ch '\n'),
  optsGroupRE upperRE ')', rePlusG (.ch '\n'), answerRE upperRE, reOptG (.ch ')')]

/-- Third template pattern: lowercase options with dot separator and no
optional trailing parenthesis after the answer letter. -/
def pat3 : RE := seqL [numPreRE, .grp 2 (reStarL .dot), rePlusG (.ch '\n'),
  optsGroupRE lowerRE '.', rePlusG (.ch '\n'), answerRE lowerRE]

/-- Option-splitting pattern for dot-separated options (line 219): letter
group, dot, whitespace, lazy content, lookahead for the next entry or the
end. -/
def dotsOptPat : RE := seqL [.grp 1 alphaRE, .ch '.', reStarG wsRE,
  .grp 2 (reStarL .dot),
  .look (.alt (seqL [.ch '\n', alphaRE, .ch '.']) .eos)]

/-- Option-splitting pattern for parenthesis-separated options (line 221):
the group keeps the parenthesis with the letter. -/
def parenOptPat : RE := seqL [.grp 1 (.seq alphaRE (.ch ')')), reStarG wsRE,
  .grp 2 (reStarL .dot),
  .look (.alt (seqL [.ch '\n', alphaRE, .ch ')']) .eos)]

/-! ### The fallback processing loop (lines 200 to 256) -/

/-- The option-splitting step of the fallback tier (lines 217 to 221): the
dot pattern when the options span has a dot and no parenthesis, the
parenthesis pattern otherwise, in document order with no re-sorting. -/
def fallbackOptionsRaw (optionsText : Str) : List (List Str) :=
  if '.' ∈ optionsText ∧ ¬ ')' ∈ optionsText then reFindAll dotsOptPat 2 optionsText
  else reFindAll parenOptPat 2 optionsText

/-- Outcome of one template-pattern match, a tuple of four groups: mirrors
the per-match body of lines 208 to 252, including the surrounding
try/except, which records the running count as label when taking the code
point of the answer group fails because it is not a single character. -/
def fallbackOutcome (cnt : Nat) (m : List Str) : BlockOutcome :=
  let g1 := m.getD 0 []
  let g2 := m.getD 1 []
  let g3 := m.getD 2 []
  let g4 := m.getD 3 []
  let question_num := if g1 ≠ [] then strip g1 else natToStr cnt
  let question_text := strip g2
  let a1 := (strip g4).map lowerC
  let a2 := if a1.getLast? = some ')' then a1.dropLast else a1
  match a2 with
  | [c] =>
    let correct_index : Int := (c.toNat : Int) - 97
    let options := (fallbackOptionsRaw (strip g3)).map (fun g => strip (g.getD 1 []))
    if 0 ≤ correct_index ∧ correct_index < (options.length : Int) then
      .accepted ⟨question_num, question_text, options, correct_index.toNat⟩
    else .skipped question_num
  | _ => .skipped (natToStr cnt)

/-- Per-match processing of the fallback loop: the outcome applied to the
state, with the same duplicate check as the primary tier (line 238). -/
def processFallbackMatch (stc : ExtState × Nat) (m : List Str) : ExtState × Nat :=
  let st := stc.1
  let cnt := stc.2 + 1
  match fallbackOutcome cnt m with
  | .silent => (st, cnt)
  | .skipped lbl => ({ st with skipped := st.skipped ++ [lbl] }, cnt)
  | .accepted q =>
    if q.question.take 50 ∈ st.seen then (st, cnt)
    else ({ st with questions := st.questions ++ [q],
                    seen := st.seen ++ [q.question.take 50] }, cnt)

/-- The fallback pass: the three template patterns applied in order to the
cleaned text, sharing the extraction state and one running match counter. -/
def fallbackPass (text : Str) (st : ExtState) : ExtState :=
  ([pat1, pat2, pat3].foldl
    (fun stc p => (reFindAll p 4 text).foldl processFallbackMatch stc)
    (st, 0)).1

/-- Embedding of extract_questions_from_text (src/utils.py lines 70 to
258): the clean-up pre-pass, the primary pass over the split blocks, then
the fallback pass when the primary pass accepted no question. -/
def extract_questions_from_text (text : Str) : List QDict × List Str :=
  let t := normalizeText text
  let st := primaryPass t
  let st2 := if st.questions.isEmpty then fallbackPass t st else st
  (st2.questions, st2.skipped)

/-! ### Concrete extraction scenarios -/

/-- A question block whose options appear in the source in the order b
before a. -/
def cex2 : Str := "1. Q?\nb) Bee\na) Ay\nAnswer: a".toList

/-- C2, counterexample: the primary strategy re-sorts options by letter.
The source block lists Bee then Ay (the appearance order the option scanner
itself reports), but the accepted Question carries Ay then Bee. -/
theorem c2_counterexample :
    extract_questions_from_text cex2 =
      ([⟨['1'], "Q?".toList, ["Ay".toList, "Bee".toList], 0⟩], []) ∧
    (scanOptions cex2).map (fun p => strip p.2) = ["Bee".toList, "Ay".toList] ∧
    ["Ay".toList, "Bee".toList] ≠ ["Bee".toList, "Ay".toList] := by
  refine ⟨by decide, by decide, by decide⟩

/-- One well-formed question block. -/
def blkA : Str := "1. Q?\na) X\nb) Y\nAnswer: a".toList

/-- Two copies of the same block separated by a blank line. -/
def cex3 : Str :=
  "1. Q?\na) X\nb) Y\nAnswer: a\n\n1. Q?\na) X\nb) Y\nAnswer: a".toList

/-- C3, counterexample: two blocks with identical stems yield one accepted
Question and an empty skip list — the duplicate is dropped silently, with
no record of any kind for the later block. -/
theorem c3_counterexample :
    splitBlocks (normalizeText cex3) = [blkA, blkA] ∧
    extract_questions_from_text cex3 =
      ([⟨['1'], "Q?".toList, ["X".toList, "Y".toList], 0⟩], []) := by
  refine ⟨by decide, by decide⟩

/-- A well-formed block followed by a candidate block with no options. -/
def cex4 : Str :=
  "1. Q?\na) X\nb) Y\nAnswer: a\n\nsecond block no options here".toList

/-- C4, counterexample: the second candidate block is non-empty and has
fewer than two option matches, and extraction returns an empty skip list —
the block is discarded silently instead of yielding a record carrying the
count found. -/
theorem c4_counterexample :
    splitBlocks (normalizeText cex4) =
      [blkA, "second block no options here".toList] ∧
    strip ("second block no options here".toList) ≠ [] ∧
    (scanOptions ("second block no options here".toList)).length < 2 ∧
    extract_questions_from_text cex4 =
      ([⟨['1'], "Q?".toList, ["X".toList, "Y".toList], 0⟩], []) := by
  refine ⟨by decide, by decide, by decide, by decide⟩

/-- The second block of the answer-letter scenario: options labelled a and
c, answer letter c. -/
def cex9blk : Str := "2. Second?\na) X\nc) Y\nAnswer: c".toList

/-- A well-formed first block followed by the a/c block. -/
def cex9 : Str :=
  "1. First?\na) X\nb) Y\nAnswer: a\n\n2. Second?\na) X\nc) Y\nAnswer: c".toList

/-- C9, counterexample: in the second block the answer letter c is among
the extracted option letters a and c, yet the block is rejected with its
label in the skip list and no Question: the code maps the letter to its
alphabet offset 2 and compares that against the option count, never to the
position among the extracted letters (which would be 1). -/
theorem c9_counterexample :
    findAnswer cex9blk = some 'c' ∧
    (scanOptions cex9blk).map (fun p => p.1) = ['a', 'c'] ∧
    extract_questions_from_text cex9 =
      ([⟨['1'], "First?".toList, ["X".toList, "Y".toList], 0⟩], [['2']]) := by
  refine ⟨by decide, by decide, by decide⟩

/-- Input whose only parse goes through the third template pattern of the
fallback tier. -/
def cex5 : Str := "1. Q\na. x)\nb. y\nAnswer: a".toList

/-- C5, counterexample: the fallback tier constructs a Question with a
single option (the dot-separated block is split by the parenthesis pattern
because the option text contains a parenthesis), so the invariant that
every Question in an ExtractionResult has at least two options fails. -/
theorem c5_counterexample :
    extract_questions_from_text cex5 =
      ([⟨['1'], ['Q'], ["b. y".toList], 0⟩], []) ∧
    (extract_questions_from_text cex5).1.map (fun q => q.options.length) = [1] := by
  refine ⟨by decide, by decide⟩

/-- C6, counterexample: a Question meeting the data-model invariants
(non-empty stem, two options, index in range) whose second option carries a
leading space.  Encoding and re-extracting loses the space (the option
regex consumes it and the option text is stripped), so the decoded options
differ from the originals. -/
theorem c6_counterexample :
    format_quiz_as_text (PollQ.mk ("Q".toList) ["x".toList, " y".toList] (some 0))
        none = "Q\na) x\nb)  y\nAnswer: a) x".toList ∧
    extract_questions_from_text ("Q\na) x\nb)  y\nAnswer: a) x".toList) =
      ([⟨['1'], ['Q'], [['x'], ['y']], 0⟩], []) ∧
    [['x'], ['y']] ≠ ["x".toList, " y".toList] := by
  refine ⟨by decide, by decide, by decide⟩

/-! ### Sorting lemmas for the option sort of the primary tier -/

theorem insertOpt_perm (x : Char × Str) (l : List (Char × Str)) :
    (insertOpt x l).Perm (x :: l) := by
  induction l with
  | nil => exact List.Perm.refl _
  | cons y t ih =>
    unfold insertOpt
    split
    · exact List.Perm.refl _
    · exact (ih.cons y).trans (List.Perm.swap x y t)

theorem sortOptions_perm (l : List (Char × Str)) : (sortOptions l).Perm l := by
  suffices h : ∀ (l2 acc : List (Char × Str)),
      (l2.foldl (fun acc x => insertOpt x acc) acc).Perm (acc ++ l2) by
    simpa using h l []
  intro l2
  induction l2 with
  | nil => intro acc; simp
  | cons x t ih =>
    intro acc
    simp only [List.foldl_cons]
    refine (ih (insertOpt x acc)).trans ?_
    have h1 : (insertOpt x acc ++ t).Perm ((x :: acc) ++ t) :=
      (insertOpt_perm x acc).append_right t
    have h3 : (x :: (acc ++ t)).Perm (acc ++ x :: t) := List.perm_middle.symm
    exact h1.trans h3

theorem insertOpt_sorted {x : Char × Str} {l : List (Char × Str)}
    (h : (l.map (fun p => p.1)).Sorted (· ≤ ·)) :
    ((insertOpt x l).map (fun p => p.1)).Sorted (· ≤ ·) := by
  induction l with
  | nil => simp [insertOpt]
  | cons y t ih =>
    unfold insertOpt
    split
    · next hlt =>
      simp only [List.map_cons, List.sorted_cons] at h ⊢
      refine ⟨?_, h⟩
      intro b hb
      rcases List.mem_cons.mp hb with hb1 | hb2
      · exact hb1 ▸ le_of_lt hlt
      · exact le_trans (le_of_lt hlt) (h.1 b hb2)
    · next hge =>
      have hyx : y.1 ≤ x.1 := le_of_not_lt hge
      simp only [List.map_cons, List.sorted_cons] at h ⊢
      constructor
      · intro b hb
        have hperm : ((insertOpt x t).map (fun p => p.1)).Perm
            ((x :: t).map (fun p => p.1)) := (insertOpt_perm x t).map _
        rcases List.mem_cons.mp (hperm.mem_iff.mp hb) with hb1 | hb2
        · exact hb1 ▸ hyx
        · exact h.1 b hb2
      · exact ih h.2

theorem sortOptions_sorted (l : List (Char × Str)) :
    ((sortOptions l).map (fun p => p.1)).Sorted (· ≤ ·) := by
  suffices h : ∀ (l2 acc : List (Char × Str)),
      ((acc.map (fun p => p.1)).Sorted (· ≤ ·)) →
      (((l2.foldl (fun acc x => insertOpt x acc) acc).map
        (fun p => p.1)).Sorted (· ≤ ·)) by
    exact h l [] (by simp)
  intro l2
  induction l2 with
  | nil => intro acc hacc; exact hacc
  | cons x t ih =>
    intro acc hacc
    simp only [List.foldl_cons]
    exact ih (insertOpt x acc) (insertOpt_sorted hacc)

/-! ### Characterization of the accepting branch of the primary tier -/

/-- The option matches a block contributes to the index computation. -/
def blockMatches (b : Str) (idx : Nat) : List (Char × Str) :=
  scanOptions ('\n' :: optionsTextOf (questionTextOf b) idx)

theorem blockOutcome_accept_iff {i : Nat} {b : Str} {q : QDict} :
    blockOutcome i b = .accepted q ↔
      ∃ (ansChar : Char) (idx : Nat),
        strip b ≠ [] ∧ ¬ (scanOptions b).length < 2 ∧
        findAnswer b = some ansChar ∧
        findOptionsStart (questionTextOf b) = some idx ∧
        ¬ (blockMatches b idx).length < 2 ∧
        ¬ (((lowerC ansChar).toNat : Int) - 97 < 0 ∨
            ((blockMatches b idx).length : Int) ≤ ((lowerC ansChar).toNat : Int) - 97) ∧
        (0 ≤ ((lowerC ansChar).toNat : Int) - 97 ∧
          ((lowerC ansChar).toNat : Int) - 97 <
            (((sortOptions (blockMatches b idx)).map (fun p => strip p.2)).length : Int)) ∧
        q = ⟨questionNumOf i b, strip ((questionTextOf b).take idx),
              (sortOptions (blockMatches b idx)).map (fun p => strip p.2),
              (((lowerC ansChar).toNat : Int) - 97).toNat⟩ := by
  constructor
  · intro h
    unfold blockOutcome at h
    split at h
    · exact absurd h (by simp)
    next h0 =>
    split at h
    · exact absurd h (by simp)
    next h1 =>
    split at h
    · exact absurd h (by simp)
    next ansChar hans =>
    simp only [] at h
    split at h
    · exact absurd h (by simp)
    next idx hidx =>
    split at h
    · exact absurd h (by simp)
    next h2 =>
    split at h
    · exact absurd h (by simp)
    next h3 =>
    split at h
    · next h4 =>
      cases h
      refine ⟨ansChar, idx, h0, h1, hans, hidx, ?_, ?_, ?_, rfl⟩
      · simpa only [blockMatches] using h2
      · simpa only [blockMatches] using h3
      · simpa only [blockMatches] using h4
    · exact absurd h (by simp)
  · rintro ⟨ansChar, idx, h0, h1, hans, hidx, h2, h3, h4, hq⟩
    simp only [blockMatches] at h2 h3 h4 hq
    unfold blockOutcome
    simp only [hans, hidx, if_neg h0, if_neg h1, if_neg h2, if_neg h3, if_pos h4]
    rw [hq]

/-- The accepting branch of the fallback per-match body. -/
theorem fallbackOutcome_accept_iff {cnt : Nat} {m : List Str} {q : QDict} :
    fallbackOutcome cnt m = .accepted q ↔
      ∃ c : Char,
        (if ((strip (m.getD 3 [])).map lowerC).getLast? = some ')' then
            ((strip (m.getD 3 [])).map lowerC).dropLast
          else (strip (m.getD 3 [])).map lowerC) = [c] ∧
        (0 ≤ (c.toNat : Int) - 97 ∧
          (c.toNat : Int) - 97 <
            (((fallbackOptionsRaw (strip (m.getD 2 []))).map
              (fun g => strip (g.getD 1 []))).length : Int)) ∧
        q = ⟨(if m.getD 0 [] ≠ [] then strip (m.getD 0 []) else natToStr cnt),
             strip (m.getD 1 []),
             (fallbackOptionsRaw (strip (m.getD 2 []))).map (fun g => strip (g.getD 1 [])),
             ((c.toNat : Int) - 97).toNat⟩ := by
  constructor
  · intro h
    unfold fallbackOutcome at h
    simp only [] at h
    split at h
    · next c hc =>
      split at h
      · next h4 =>
        cases h
        exact ⟨c, hc, h4, rfl⟩
      · exact absurd h (by simp)
    · exact absurd h (by simp)
  · rintro ⟨c, hc, h4, hq⟩
    unfold fallbackOutcome
    simp only [hc, if_pos h4]
    rw [hq]

/-- C2, amended: the primary tier re-sorts option entries by their matched
letter before building the Question: the accepted options are the stripped
texts of a permutation of the appearance-order entries whose letters are
sorted; the fallback tier builds its options from the option-splitting
findall in appearance order, with no re-sorting. -/
theorem c2_amended :
    (∀ (i : Nat) (b : Str) (q : QDict) (idx : Nat),
        blockOutcome i b = .accepted q →
        findOptionsStart (questionTextOf b) = some idx →
        q.options = (sortOptions (blockMatches b idx)).map (fun p => strip p.2) ∧
        (sortOptions (blockMatches b idx)).Perm (blockMatches b idx) ∧
        ((sortOptions (blockMatches b idx)).map (fun p => p.1)).Sorted (· ≤ ·)) ∧
    (∀ (cnt : Nat) (m : List Str) (q : QDict),
        fallbackOutcome cnt m = .accepted q →
        q.options = (fallbackOptionsRaw (strip (m.getD 2 []))).map
          (fun g => strip (g.getD 1 []))) := by
  constructor
  · intro i b q idx hacc hidx
    rcases blockOutcome_accept_iff.mp hacc with ⟨a, idx2, _, _, _, hidx2, _, _, _, hq⟩
    have hii : idx2 = idx := by
      rw [hidx2] at hidx
      exact Option.some.inj hidx
    subst hii
    rw [hq]
    exact ⟨rfl, sortOptions_perm _, sortOptions_sorted _⟩
  · intro cnt m q hacc
    rcases fallbackOutcome_accept_iff.mp hacc with ⟨c, _, _, hq⟩
    rw [hq]

/-- The question accepted from the block listing Bee before Ay. -/
def cex2q : QDict := ⟨['1'], "Q?".toList, ["Ay".toList, "Bee".toList], 0⟩

/-- C2, witness: the amended statement at the concrete out-of-order block. -/
theorem c2_witness :
    (blockOutcome 0 cex2 = .accepted cex2q ∧
      findOptionsStart (questionTextOf cex2) = some 2) ∧
    (cex2q.options = (sortOptions (blockMatches cex2 2)).map (fun p => strip p.2) ∧
      (sortOptions (blockMatches cex2 2)).Perm (blockMatches cex2 2) ∧
      ((sortOptions (blockMatches cex2 2)).map (fun p => p.1)).Sorted (· ≤ ·)) :=
  ⟨⟨by decide, by decide⟩, c2_amended.1 0 cex2 cex2q 2 (by decide) (by decide)⟩

/-- C3, amended: a repeated block contributes nothing at all on its second
processing — no Question and no skip record — because the duplicate check
(on the first fifty characters of the question text) hits the seen set; the
state after processing the duplicate equals the state before it. -/
theorem c3_amended (st : ExtState) (i j : Nat) (b : Str)
    (h : (processBlock st i b).questions ≠ st.questions) :
    processBlock (processBlock st i b) j b = processBlock st i b := by
  cases hq : blockOutcome i b with
  | silent => exact absurd (by simp [processBlock, hq]) h
  | skipped lbl => exact absurd (by simp [processBlock, hq]) h
  | accepted q =>
    by_cases hseen : q.question.take 50 ∈ st.seen
    · exact absurd (by simp [processBlock, hq, hseen]) h
    · have hst1 : processBlock st i b =
          { st with questions := st.questions ++ [q],
                    seen := st.seen ++ [q.question.take 50] } := by
        simp [processBlock, hq, hseen]
      rcases blockOutcome_accept_iff.mp hq with
        ⟨a, idx, c0, c1, c2, c3, c4, c5, c6, hqeq⟩
      have hq2 : blockOutcome j b = .accepted
          ⟨questionNumOf j b, strip ((questionTextOf b).take idx),
            (sortOptions (blockMatches b idx)).map (fun p => strip p.2),
            (((lowerC a).toNat : Int) - 97).toNat⟩ :=
        blockOutcome_accept_iff.mpr ⟨a, idx, c0, c1, c2, c3, c4, c5, c6, rfl⟩
    
      have hkey : (strip ((questionTextOf b).take idx)).take 50 = q.question.take 50 := by
        rw [hqeq]
      rw [hst1]
      simp only [processBlock, hq2]
      rw [if_pos]
      simp only [List.mem_append, hkey]
      right
      exact List.mem_singleton.mpr rfl

/-- C3, witness: the amended statement at the concrete duplicated block. -/
theorem c3_witness :
    ((processBlock ⟨[], [], []⟩ 0 blkA).questions ≠ ([] : List QDict)) ∧
      processBlock (processBlock ⟨[], [], []⟩ 0 blkA) 1 blkA =
        processBlock ⟨[], [], []⟩ 0 blkA :=
  ⟨by decide, c3_amended ⟨[], [], []⟩ 0 1 blkA (by decide)⟩

/-- C4, amended: a candidate block whose initial option screen finds fewer
than two entries is dropped silently — the state is returned unchanged,
with no skip record of any kind; only a block that passes the screen and
whose post-split option extraction finds fewer than two entries is skipped,
and its record carries the question label only, not the count found. -/
theorem c4_amended :
    (∀ (st : ExtState) (i : Nat) (b : Str), (scanOptions b).length < 2 →
        processBlock st i b = st) ∧
    (∀ (i : Nat) (b : Str) (ansChar : Char) (idx : Nat),
        strip b ≠ [] → ¬ (scanOptions b).length < 2 →
        findAnswer b = some ansChar →
        findOptionsStart (questionTextOf b) = some idx →
        (blockMatches b idx).length < 2 →
        blockOutcome i b = .skipped (questionNumOf i b)) := by
  constructor
  · intro st i b hcnt
    by_cases h0 : strip b = [] <;>
      simp [processBlock, blockOutcome, h0, hcnt]
  · intro i b ansChar idx h0 h1 hans hidx h2
    simp only [blockMatches] at h2
    unfold blockOutcome
    simp only [hans, hidx, if_neg h0, if_neg h1, if_pos h2]

/-- C4, witness: the amended statement at the concrete optionless block. -/
theorem c4_witness :
    (scanOptions ("second block no options here".toList)).length < 2 ∧
      processBlock ⟨[], [], []⟩ 1 ("second block no options here".toList) =
        ⟨[], [], []⟩ :=
  ⟨by decide,
    c4_amended.1 ⟨[], [], []⟩ 1 ("second block no options here".toList) (by decide)⟩

/-- C9, amended: the answer letter maps case-insensitively to its alphabet
offset — its code point minus that of the letter a — never to a position
among the extracted option letters; when the offset is at or beyond the
number of extracted entries the block is skipped with its label only
(whether or not the letter occurs among the extracted letters), and an
accepted block stores the offset itself as correct_option_id. -/
theorem c9_amended :
    (∀ (i : Nat) (b : Str) (ansChar : Char) (idx : Nat),
        strip b ≠ [] → ¬ (scanOptions b).length < 2 →
        findAnswer b = some ansChar →
        findOptionsStart (questionTextOf b) = some idx →
        ¬ (blockMatches b idx).length < 2 →
        ((blockMatches b idx).length : Int) ≤ ((lowerC ansChar).toNat : Int) - 97 →
        blockOutcome i b = .skipped (questionNumOf i b)) ∧
    (∀ (i : Nat) (b : Str) (q : QDict), blockOutcome i b = .accepted q →
        ∃ ansChar, findAnswer b = some ansChar ∧
          q.correct_option_id = (lowerC ansChar).toNat - 97) := by
  constructor
  · intro i b ansChar idx h0 h1 hans hidx h2 hge
    simp only [blockMatches] at h2 hge
    unfold blockOutcome
    simp only [hans, hidx, if_neg h0, if_neg h1, if_neg h2, if_pos (Or.inr hge)]
  · intro i b q hacc
    rcases blockOutcome_accept_iff.mp hacc with
      ⟨a, idx, _, _, hans, _, _, _, _, hq⟩
    refine ⟨a, hans, ?_⟩
    rw [hq]
    show (((lowerC a).toNat : Int) - 97).toNat = (lowerC a).toNat - 97
    omega

/-- C9, witness: the amended statement at the block with options a and c
and answer letter c (alphabet offset 2, two extracted options). -/
theorem c9_witness :
    (findAnswer cex9blk = some 'c' ∧
      ((blockMatches cex9blk 7).length : Int) ≤ ((lowerC 'c').toNat : Int) - 97) ∧
    blockOutcome 1 cex9blk = .skipped (questionNumOf 1 cex9blk) :=
  ⟨⟨by decide, by decide⟩,
    c9_amended.1 1 cex9blk 'c' 7 (by decide) (by decide) (by decide) (by decide)
      (by decide) (by decide)⟩

/-! ### Structural invariants of every accepted Question -/

theorem blockOutcome_accept_bounds {i : Nat} {b : Str} {q : QDict}
    (h : blockOutcome i b = .accepted q) :
    q.correct_option_id < q.options.length ∧ 2 ≤ q.options.length := by
  rcases blockOutcome_accept_iff.mp h with ⟨a, idx, _, _, _, _, h2, _, h4, hq⟩
  have hlen : ((sortOptions (blockMatches b idx)).map (fun p => strip p.2)).length =
      (blockMatches b idx).length := by
    rw [List.length_map]
    exact (sortOptions_perm _).length_eq
  subst hq
  constructor
  · show (((lowerC a).toNat : Int) - 97).toNat <
      ((sortOptions (blockMatches b idx)).map (fun p => strip p.2)).length
    omega
  · show 2 ≤ ((sortOptions (blockMatches b idx)).map (fun p => strip p.2)).length
    omega

theorem fallbackOutcome_accept_bound {cnt : Nat} {m : List Str} {q : QDict}
    (h : fallbackOutcome cnt m = .accepted q) :
    q.correct_option_id < q.options.length := by
  rcases fallbackOutcome_accept_iff.mp h with ⟨c, _, h4, hq⟩
  subst hq
  show ((c.toNat : Int) - 97).toNat <
    ((fallbackOptionsRaw (strip (m.getD 2 []))).map (fun g => strip (g.getD 1 []))).length
  omega

theorem processBlock_inv {P : QDict → Prop}
    (hP : ∀ i b q, blockOutcome i b = .accepted q → P q)
    {st : ExtState} (hst : ∀ q ∈ st.questions, P q)
    (i : Nat) (b : Str) : ∀ q ∈ (processBlock st i b).questions, P q := by
  intro q hq
  simp only [processBlock] at hq
  cases hb : blockOutcome i b with
  | silent => rw [hb] at hq; exact hst q hq
  | skipped lbl => rw [hb] at hq; exact hst q hq
  | accepted q2 =>
    rw [hb] at hq
    simp only [] at hq
    split at hq
    · exact hst q hq
    · simp only [List.mem_append] at hq
      rcases hq with hq | hq
      · exact hst q hq
      · rw [List.mem_singleton.mp hq]
        exact hP i b q2 hb

theorem foldlBlocks_inv {P : QDict → Prop}
    (hP : ∀ i b q, blockOutcome i b = .accepted q → P q) :
    ∀ (l : List (Nat × Str)) (st : ExtState), (∀ q ∈ st.questions, P q) →
      ∀ q ∈ (l.foldl (fun st p => processBlock st p.1 p.2) st).questions, P q := by
  intro l
  induction l with
  | nil => intro st hst; exact hst
  | cons p t ih =>
    intro st hst
    simp only [List.foldl_cons]
    exact ih _ (processBlock_inv hP hst p.1 p.2)

theorem processFallbackMatch_inv {P : QDict → Prop}
    (hP : ∀ cnt m q, fallbackOutcome cnt m = .accepted q → P q)
    {stc : ExtState × Nat} (hst : ∀ q ∈ stc.1.questions, P q)
    (m : List Str) : ∀ q ∈ (processFallbackMatch stc m).1.questions, P q := by
  intro q hq
  simp only [processFallbackMatch] at hq
  cases hb : fallbackOutcome (stc.2 + 1) m with
  | silent => rw [hb] at hq; exact hst q hq
  | skipped lbl => rw [hb] at hq; exact hst q hq
  | accepted q2 =>
    rw [hb] at hq
    simp only [] at hq
    split at hq
    · exact hst q hq
    · simp only [List.mem_append] at hq
      rcases hq with hq | hq
      · exact hst q hq
      · rw [List.mem_singleton.mp hq]
        exact hP (stc.2 + 1) m q2 hb

theorem foldlFb_inv {P : QDict → Prop}
    (hP : ∀ cnt m q, fallbackOutcome cnt m = .accepted q → P q) :
    ∀ (ms : List (List Str)) (stc : ExtState × Nat), (∀ q ∈ stc.1.questions, P q) →
      ∀ q ∈ (ms.foldl processFallbackMatch stc).1.questions, P q := by
  intro ms
  induction ms with
  | nil => intro stc hst; exact hst
  | cons m t ih =>
    intro stc hst
    simp only [List.foldl_cons]
    exact ih _ (processFallbackMatch_inv hP hst m)

theorem fallbackPass_inv {P : QDict → Prop}
    (hP : ∀ cnt m q, fallbackOutcome cnt m = .accepted q → P q)
    (text : Str) (st : ExtState) (hst : ∀ q ∈ st.questions, P q) :
    ∀ q ∈ (fallbackPass text st).questions, P q := by
  unfold fallbackPass
  simp only [List.foldl_cons, List.foldl_nil]
  exact foldlFb_inv hP _ _ (foldlFb_inv hP _ _ (foldlFb_inv hP _ _ hst))

/-- C5, amended: every Question in an extraction result, whichever tier
produced it, has its correct-option index strictly below its option count;
the guarantee of at least two options holds for the primary tier but not
for the fallback tier (which checks only the index bound). -/
theorem c5_amended :
    (∀ (text : Str) (q : QDict), q ∈ (extract_questions_from_text text).1 →
        q.correct_option_id < q.options.length) ∧
    (∀ (text : Str) (q : QDict), q ∈ (primaryPass (normalizeText text)).questions →
        2 ≤ q.options.length ∧ q.correct_option_id < q.options.length) := by
  have hprim : ∀ (t : Str) (q : QDict), q ∈ (primaryPass t).questions →
      2 ≤ q.options.length ∧ q.correct_option_id < q.options.length := by
    intro t q hq
    refine foldlBlocks_inv (P := fun q2 =>
      2 ≤ q2.options.length ∧ q2.correct_option_id < q2.options.length)
      (fun i b q2 h => ⟨(blockOutcome_accept_bounds h).2,
        (blockOutcome_accept_bounds h).1⟩) _ _ (by simp) q hq
  constructor
  · intro text q hq
    simp only [extract_questions_from_text] at hq
    split at hq
    · next he =>
      refine fallbackPass_inv (P := fun q2 => q2.correct_option_id < q2.options.length)
        (fun cnt m q2 h => fallbackOutcome_accept_bound h) _ _ ?_ q hq
      intro q2 hq2
      rw [List.isEmpty_iff.mp he] at hq2
      exact absurd hq2 (List.not_mem_nil q2)
    · exact (hprim _ q hq).2
  · intro text q hq
    exact hprim _ q hq

/-- C5, witness: both parts of the amended statement at the question
extracted from a concrete well-formed block. -/
theorem c5_witness :
    ((⟨['1'], "Q?".toList, ["X".toList, "Y".toList], 0⟩ : QDict) ∈
        (extract_questions_from_text blkA).1) ∧
    (⟨['1'], "Q?".toList, ["X".toList, "Y".toList], 0⟩ : QDict).correct_option_id <
      (⟨['1'], "Q?".toList, ["X".toList, "Y".toList], 0⟩ : QDict).options.length ∧
    2 ≤ (⟨['1'], "Q?".toList, ["X".toList, "Y".toList], 0⟩ : QDict).options.length :=
  ⟨by decide, c5_amended.1 blkA _ (by decide),
    (c5_amended.2 blkA _ (by decide)).1⟩

/-! ### The round trip: supporting character facts -/

/-- A clean field: non-empty, free of newline and carriage return, with no
surrounding whitespace. -/
def cleanField (s : Str) : Prop :=
  s ≠ [] ∧ ('\n' ∉ s) ∧ ('\r' ∉ s) ∧
  (∀ c, s.head? = some c → isWs c = false) ∧
  (∀ c, s.getLast? = some c → isWs c = false)

instance (s : Str) : Decidable (cleanField s) := by
  unfold cleanField
  infer_instance

theorem letterOf_toNat {k : Nat} (hk : k ≤ 25) : (letterOf k).toNat = 97 + k := by
  unfold letterOf Char.ofNat
  rw [dif_pos (Or.inl (by omega : 97 + k < 55296))]
  simp [Char.ofNatAux, Char.toNat, UInt32.toNat]

theorem char_lt_iff {c d : Char} : c < d ↔ c.toNat < d.toNat := by
  rw [Char.lt_def, UInt32.lt_def, BitVec.lt_def]
  exact Iff.rfl

theorem char_eq_iff {c d : Char} : c = d ↔ c.toNat = d.toNat := by
  constructor
  · intro h; rw [h]
  · intro h
    apply Char.eq_of_val_eq
    apply UInt32.eq_of_toBitVec_eq
    apply BitVec.eq_of_toNat_eq
    exact h

theorem letterOf_lt {j k : Nat} (hj : j < k) (hk : k ≤ 25) :
    letterOf j < letterOf k := by
  rw [char_lt_iff, letterOf_toNat (by omega), letterOf_toNat hk]
  omega

theorem letterOf_isAlpha {k : Nat} (hk : k ≤ 25) : isAlphaAZ (letterOf k) = true := by
  simp only [isAlphaAZ, isLowerAZ, isUpperAZ, letterOf_toNat hk]
  simp only [Bool.or_eq_true, Bool.and_eq_true, decide_eq_true_eq]
  omega

theorem letterOf_lower {k : Nat} (hk : k ≤ 25) : lowerC (letterOf k) = letterOf k := by
  unfold lowerC
  rw [if_neg]
  simp only [isUpperAZ, letterOf_toNat hk, Bool.and_eq_true, decide_eq_true_eq]
  omega

theorem letterOf_ne {k : Nat} (hk : k ≤ 25) {d : Char} (hd : d.toNat < 97) :
    letterOf k ≠ d := by
  rw [Ne, char_eq_iff, letterOf_toNat hk]
  omega

theorem letterOf_not_ws {k : Nat} (hk : k ≤ 25) : isWs (letterOf k) = false := by
  simp only [isWs, Bool.or_eq_false_iff, decide_eq_false_iff_not]
  refine ⟨⟨⟨⟨⟨?_, ?_⟩, ?_⟩, ?_⟩, ?_⟩, ?_⟩ <;>
    exact letterOf_ne hk (by decide)

theorem letterOf_not_digit {k : Nat} (hk : k ≤ 25) : isDigitC (letterOf k) = false := by
  simp only [isDigitC, letterOf_toNat hk, Bool.and_eq_false_iff, decide_eq_false_iff_not]
  omega

/-! ### Strip and scan helpers -/

theorem dropWhile_eq_self_of_head {l : Str}
    (h : ∀ c, l.head? = some c → isWs c = false) : l.dropWhile isWs = l := by
  cases l with
  | nil => rfl
  | cons c t =>
    rw [List.dropWhile_cons, h c rfl]
    simp

theorem strip_eq_self {l : Str}
    (h1 : ∀ c, l.head? = some c → isWs c = false)
    (h2 : ∀ c, l.getLast? = some c → isWs c = false) : strip l = l := by
  unfold strip
  rw [dropWhile_eq_self_of_head h1]
  rw [dropWhile_eq_self_of_head (by
    intro c hc
    rw [List.head?_reverse] at hc
    exact h2 c hc)]
  exact List.reverse_reverse l

theorem scanOptionsGo_skip : ∀ (k : Nat) (l : Str),
    scanOptionsGo k l = scanOptionsGo 0 (l.drop k) := by
  intro k
  induction k with
  | zero => intro l; rw [List.drop_zero]
  | succ n ih =>
    intro l
    cases l with
    | nil => rfl
    | cons c t =>
      rw [List.drop_succ_cons]
      show scanOptionsGo n t = scanOptionsGo 0 (t.drop n)
      exact ih t

theorem scanOptionsGo_cons_ne {c : Char} (hc : c ≠ '\n') (l : Str) :
    scanOptionsGo 0 (c :: l) = scanOptionsGo 0 l := by
  simp only [scanOptionsGo, if_neg hc]

theorem scanOptions_prefix {x : Str} (hx : '\n' ∉ x) (r : Str) :
    scanOptionsGo 0 (x ++ r) = scanOptionsGo 0 r := by
  induction x with
  | nil => rfl
  | cons c t ih =>
    have hc : c ≠ '\n' := fun he => hx (by simp [he])
    rw [List.cons_append, scanOptionsGo_cons_ne hc,
      ih (fun hm => hx (List.mem_cons_of_mem c hm))]

theorem scanOptions_noNl {l : Str} (h : '\n' ∉ l) : scanOptionsGo 0 l = [] := by
  have h2 := scanOptions_prefix h ([] : Str)
  simpa using h2

theorem takeWhile_noNl {o : Str} (ho : '\n' ∉ o) (r : Str) :
    (o ++ '\n' :: r).takeWhile (fun c => c != '\n') = o := by
  rw [takeWhile_append_all (by
    intro c hc
    simp only [bne_iff_ne, ne_eq, decide_eq_true_eq]
    exact fun he => ho (he ▸ hc))]
  simp

theorem optTail_line {o : Str} (ho1 : o ≠ []) (ho2 : '\n' ∉ o)
    (ho3 : ∀ c, o.head? = some c → isWs c = false) (rest : Str) :
    optTail (' ' :: (o ++ '\n' :: rest)) = some (1 + o.length, o) := by
  have hrun : (' ' :: (o ++ '\n' :: rest)).takeWhile isWs = [' '] := by
    rw [List.takeWhile_cons]
    have hsp : isWs ' ' = true := rfl
    rw [hsp]
    simp only [if_true]
    cases o with
    | nil => exact absurd rfl ho1
    | cons c t =>
      rw [List.cons_append, List.takeWhile_cons, ho3 c rfl]
      simp
  unfold optTail
  rw [hrun]
  simp only [List.length_cons, List.length_nil, Nat.zero_add, List.drop_succ_cons,
    List.drop_zero]
  cases ho : o ++ '\n' :: rest with
  | nil => exact absurd (List.append_eq_nil.mp ho).2 (by simp)
  | cons c t =>
    simp only []
    rw [← ho, takeWhile_noNl ho2]

theorem scanOptionsGo_match {k : Nat} (hk : k ≤ 25) {o : Str} (ho1 : o ≠ [])
    (ho2 : '\n' ∉ o) (ho3 : ∀ c, o.head? = some c → isWs c = false) (rest : Str) :
    scanOptionsGo 0 ('\n' :: letterOf k :: ')' :: ' ' :: (o ++ '\n' :: rest)) =
      (letterOf k, o) :: scanOptionsGo 0 ('\n' :: rest) := by
  have h1 : scanOptionsGo 0 ('\n' :: letterOf k :: ')' :: ' ' :: (o ++ '\n' :: rest)) =
      (letterOf k, o) :: scanOptionsGo (2 + (1 + o.length))
        (letterOf k :: ')' :: ' ' :: (o ++ '\n' :: rest)) := by
    simp only [scanOptionsGo, if_pos rfl, letterOf_isAlpha hk, if_true,
      optTail_line ho1 ho2 ho3]
  rw [h1, scanOptionsGo_skip]
  have h2 : (2 + (1 + o.length)) = o.length + 3 := by omega
  rw [h2]
  have h3 : (letterOf k :: ')' :: ' ' :: (o ++ '\n' :: rest)).drop (o.length + 3) =
      '\n' :: rest := by
    show (letterOf k :: ')' :: ' ' :: (o ++ '\n' :: rest)).drop (o.length + 1 + 1 + 1) =
      '\n' :: rest
    rw [List.drop_succ_cons, List.drop_succ_cons, List.drop_succ_cons]
    have := List.drop_left o ('\n' :: rest)
    exact this
  rw [h3]

/-- One option line as rendered by the codec. -/
def optLine (k : Nat) (o : Str) : Str := letterOf k :: ')' :: ' ' :: (o ++ ['\n'])

theorem scan_lines (os : List Str) : ∀ (k : Nat) (tail : Str),
    k + os.length ≤ 26 →
    (∀ o ∈ os, o ≠ [] ∧ '\n' ∉ o ∧ (∀ c, o.head? = some c → isWs c = false)) →
    '\n' ∉ tail →
    (∀ d r, tail = d :: ')' :: r → isAlphaAZ d = false) →
    scanOptionsGo 0
        ('\n' :: ((os.enumFrom k).map (fun p => optLine p.1 p.2)).flatten ++ tail) =
      (os.enumFrom k).map (fun p => (letterOf p.1, p.2)) := by
  induction os with
  | nil =>
    intro k tail _ _ htail htail2
    simp only [List.enumFrom_nil, List.map_nil, List.flatten_nil, List.nil_append]
    have hstep : scanOptionsGo 0 ('\n' :: tail) = scanOptionsGo 0 tail := by
      match tail, htail2 with
      | [], _ => rfl
      | [d], _ => rfl
      | d :: e :: r, htail2 =>
        by_cases he : e = ')'
        · subst he
          have hd : isAlphaAZ d = false := htail2 d r rfl
          show (if isAlphaAZ d = true then
              (match optTail r with
                | some p => (d, p.2) :: scanOptionsGo (2 + p.1) (d :: ')' :: r)
                | none => scanOptionsGo 0 (d :: ')' :: r))
            else scanOptionsGo 0 (d :: ')' :: r)) = scanOptionsGo 0 (d :: ')' :: r)
          rw [hd]
          simp
        · show (match d :: e :: r with
            | d2 :: ')' :: rest2 =>
              if isAlphaAZ d2 = true then
                match optTail rest2 with
                | some p => (d2, p.2) :: scanOptionsGo (2 + p.1) (d :: e :: r)
                | none => scanOptionsGo 0 (d :: e :: r)
              else scanOptionsGo 0 (d :: e :: r)
            | _ => scanOptionsGo 0 (d :: e :: r)) = scanOptionsGo 0 (d :: e :: r)
          split
          · next heq => exact absurd (List.cons.inj (List.cons.inj heq).2).1 he
          · rfl
    rw [List.singleton_append, hstep]
    exact scanOptions_noNl htail
  | cons o os2 ih =>
    intro k tail hk hos htail htail2
    obtain ⟨ho1, ho2, ho3⟩ := hos o (List.mem_cons_self o os2)
    simp only [List.length_cons] at hk
    rw [List.cons_append]
    have harg : ((((o :: os2).enumFrom k).map (fun p => optLine p.1 p.2)).flatten ++ tail) =
        letterOf k :: ')' :: ' ' :: (o ++ '\n' ::
          (((os2.enumFrom (k + 1)).map (fun p => optLine p.1 p.2)).flatten ++ tail)) := by
      simp [optLine, List.enumFrom_cons]
    rw [harg, scanOptionsGo_match (by omega) ho1 ho2 ho3]
    have ih2 := ih (k + 1) tail (by omega)
      (fun o2 h2 => hos o2 (List.mem_cons_of_mem o h2)) htail htail2
    rw [List.cons_append] at ih2
    rw [ih2]
    simp [List.enumFrom_cons]

theorem findAnswer_cons_ne {c : Char} (hc : c ≠ '\n') (l : Str) :
    findAnswer (c :: l) = findAnswer l := by
  simp only [findAnswer, if_neg hc]

theorem findAnswer_prefix {x : Str} (hx : '\n' ∉ x) (r : Str) :
    findAnswer (x ++ r) = findAnswer r := by
  induction x with
  | nil => rfl
  | cons c t ih =>
    have hc : c ≠ '\n' := fun he => hx (by simp [he])
    rw [List.cons_append, findAnswer_cons_ne hc,
      ih (fun hm => hx (List.mem_cons_of_mem c hm))]

theorem matchAnswerAfterNl_lower {c : Char} (hc : 97 ≤ c.toNat) (l : Str) :
    matchAnswerAfterNl (c :: l) = none := by
  have hstar : c ≠ '*' := by
    rw [Ne, char_eq_iff]
    intro h
    rw [h] at hc
    exact absurd hc (by decide)
  have hA : ('A' : Char) ≠ c := by
    rw [Ne, char_eq_iff]
    intro h
    rw [← h] at hc
    exact absurd hc (by decide)
  unfold matchAnswerAfterNl
  have h1 : dropStar (c :: l) = c :: l := by
    unfold dropStar
    split
    · next heq => exact absurd (List.cons.inj heq).1 hstar
    · rfl
  rw [h1]
  have h2 : ("Answer".toList : Str) = 'A' :: "nswer".toList := rfl
  rw [h2]
  have h3 : dropLit ('A' :: "nswer".toList) (c :: l) = none := by
    unfold dropLit
    rw [if_neg hA]
  rw [h3]

theorem findAnswer_nl (rest : Str) :
    findAnswer ('\n' :: rest) =
      match matchAnswerAfterNl rest with
      | some d => some d
      | none => findAnswer rest := rfl

theorem findAnswer_optLine {k : Nat} (hk : k ≤ 25) {o : Str} (ho2 : '\n' ∉ o)
    (rest : Str) :
    findAnswer (('\n' :: optLine k o) ++ rest) = findAnswer ('\n' :: rest) := by
  have hlet : 97 ≤ (letterOf k).toNat := by rw [letterOf_toNat hk]; omega
  have harg : ('\n' :: optLine k o) ++ rest =
      '\n' :: letterOf k :: ')' :: ' ' :: (o ++ '\n' :: rest) := by
    simp [optLine]
  rw [harg, findAnswer_nl, matchAnswerAfterNl_lower hlet]
  show findAnswer (letterOf k :: ')' :: ' ' :: (o ++ '\n' :: rest)) = _
  rw [findAnswer_cons_ne (by
    rw [Ne, char_eq_iff, letterOf_toNat hk]
    have hnl : ('\n').toNat = 10 := rfl
    omega)]
  rw [findAnswer_cons_ne (by decide), findAnswer_cons_ne (by decide)]
  exact findAnswer_prefix ho2 ('\n' :: rest)

theorem findAnswer_lines (os : List Str) : ∀ (k : Nat) (tail : Str),
    k + os.length ≤ 26 →
    (∀ o ∈ os, '\n' ∉ o) →
    findAnswer (('\n' :: ((os.enumFrom k).map (fun p => optLine p.1 p.2)).flatten) ++ tail)
      = findAnswer ('\n' :: tail) := by
  induction os with
  | nil =>
    intro k tail _ _
    simp
  | cons o os2 ih =>
    intro k tail hk hos
    simp only [List.length_cons] at hk
    simp only [List.enumFrom_cons, List.map_cons, List.flatten_cons]
    have harg : ('\n' :: (optLine k o ++
          ((os2.enumFrom (k + 1)).map (fun p => optLine p.1 p.2)).flatten)) ++ tail =
        ('\n' :: optLine k o) ++
          ((('\n' :: ((os2.enumFrom (k + 1)).map (fun p => optLine p.1 p.2)).flatten)
            ++ tail).drop 1) := by
      simp
    rw [harg]
    have hstep := findAnswer_optLine (k := k) (by omega) (hos o (List.mem_cons_self o os2))
      ((('\n' :: ((os2.enumFrom (k + 1)).map (fun p => optLine p.1 p.2)).flatten)
        ++ tail).drop 1)
    rw [hstep]
    have hdrop : ('\n' :: (((os2.enumFrom (k + 1)).map (fun p => optLine p.1 p.2)).flatten
        ++ tail)) = ('\n' :: ((os2.enumFrom (k + 1)).map
          (fun p => optLine p.1 p.2)).flatten) ++ tail := by
      simp
    rw [show ((('\n' :: ((os2.enumFrom (k + 1)).map (fun p => optLine p.1 p.2)).flatten)
        ++ tail).drop 1) = ((os2.enumFrom (k + 1)).map
          (fun p => optLine p.1 p.2)).flatten ++ tail by simp]
    rw [← List.cons_append]
    exact ih (k + 1) tail (by omega) (fun o2 h2 => hos o2 (List.mem_cons_of_mem o h2))

theorem findAnswer_answerLine {ci : Nat} (hci : ci ≤ 25) (oci : Str) :
    findAnswer ('\n' :: ("Answer: ".toList ++ letterOf ci :: ')' :: ' ' :: oci)) =
      some (letterOf ci) := by
  have hans : matchAnswerAfterNl ("Answer: ".toList ++ letterOf ci :: ')' :: ' ' :: oci)
      = some (letterOf ci) := by
    have h0 : ("Answer: ".toList ++ letterOf ci :: ')' :: ' ' :: oci) =
        'A' :: 'n' :: 's' :: 'w' :: 'e' :: 'r' :: ':' :: ' ' ::
          letterOf ci :: ')' :: ' ' :: oci := rfl
    rw [h0]
    unfold matchAnswerAfterNl
    have h1 : dropStar ('A' :: 'n' :: 's' :: 'w' :: 'e' :: 'r' :: ':' :: ' ' ::
        letterOf ci :: ')' :: ' ' :: oci) = 'A' :: 'n' :: 's' :: 'w' :: 'e' :: 'r' ::
          ':' :: ' ' :: letterOf ci :: ')' :: ' ' :: oci := rfl
    rw [h1]
    have h2 : dropLit ("Answer".toList) ('A' :: 'n' :: 's' :: 'w' :: 'e' :: 'r' ::
        ':' :: ' ' :: letterOf ci :: ')' :: ' ' :: oci) =
        some (':' :: ' ' :: letterOf ci :: ')' :: ' ' :: oci) := by
      show dropLit ('A' :: 'n' :: 's' :: 'w' :: 'e' :: 'r' :: [])
        ('A' :: 'n' :: 's' :: 'w' :: 'e' :: 'r' :: ':' :: ' ' ::
          letterOf ci :: ')' :: ' ' :: oci) = _
      simp [dropLit]
    rw [h2]
    have h3 : answerColon (':' :: ' ' :: letterOf ci :: ')' :: ' ' :: oci) =
        some (' ' :: letterOf ci :: ')' :: ' ' :: oci) := rfl
    have h4 : (' ' :: letterOf ci :: ')' :: ' ' :: oci).dropWhile isWs =
        letterOf ci :: ')' :: ' ' :: oci := by
      rw [List.dropWhile_cons]
      have hsp : isWs ' ' = true := rfl
      rw [hsp]
      simp only [if_true]
      rw [List.dropWhile_cons, letterOf_not_ws hci]
      simp
    simp only [h3, h4, letterOf_isAlpha hci, if_true]
  rw [findAnswer_nl, hans]

theorem findOptionsStart_at {x : Str} (hx : '\n' ∉ x) {d : Char}
    (hd : isAlphaAZ d = true) (r : Str) :
    findOptionsStart (x ++ '\n' :: d :: ')' :: r) = some x.length := by
  induction x with
  | nil =>
    simp only [List.nil_append, List.length_nil]
    simp only [findOptionsStart, if_pos rfl, hd, if_true]
  | cons c t ih =>
    have hc : c ≠ '\n' := fun he => hx (by simp [he])
    rw [List.cons_append]
    have h1 : findOptionsStart (c :: (t ++ '\n' :: d :: ')' :: r)) =
        (findOptionsStart (t ++ '\n' :: d :: ')' :: r)).map (· + 1) := by
      simp only [findOptionsStart, if_neg hc]
    rw [h1, ih (fun hm => hx (List.mem_cons_of_mem c hm))]
    simp

theorem matchQNum_none {l : Str}
    (h1 : ∀ c, l.head? = some c → isWs c = false)
    (h2 : ∀ c, l.head? = some c → isDigitC c = false) :
    matchQNum l = none := by
  unfold matchQNum
  simp only []
  rw [dropWhile_eq_self_of_head h1]
  cases l with
  | nil => rfl
  | cons c t =>
    rw [List.takeWhile_cons, h2 c rfl]
    simp

/-- Discipline of the canonical text: every newline is followed by a
character that is neither whitespace nor a digit. -/
def nlOk : Str → Bool
  | [] => true
  | c :: rest =>
    if c = '\n' then
      match rest with
      | d :: _ => !isWs d && !isDigitC d && nlOk rest
      | [] => false
    else nlOk rest

theorem nlOk_cons_ne {c : Char} (hc : c ≠ '\n') {l : Str} :
    nlOk (c :: l) = nlOk l := by
  simp only [nlOk, if_neg hc]

theorem nlOk_append {x : Str} (hx : '\n' ∉ x) {r : Str} (hr : nlOk r = true) :
    nlOk (x ++ r) = true := by
  induction x with
  | nil => exact hr
  | cons c t ih =>
    have hc : c ≠ '\n' := fun he => hx (by simp [he])
    rw [List.cons_append, nlOk_cons_ne hc]
    exact ih (fun hm => hx (List.mem_cons_of_mem c hm))

theorem nlOk_noNl {l : Str} (h : '\n' ∉ l) : nlOk l = true := by
  have h2 := nlOk_append h (r := []) rfl
  simpa using h2

theorem nlOk_nl_cons {d : Char} {t : Str} :
    nlOk ('\n' :: d :: t) = (!isWs d && !isDigitC d && nlOk (d :: t)) := by
  simp only [nlOk]
  simp

theorem nlOk_tail {c : Char} {l : Str} (h : nlOk (c :: l) = true) : nlOk l = true := by
  by_cases hc : c = '\n'
  · subst hc
    cases l with
    | nil => rfl
    | cons d t =>
      rw [nlOk_nl_cons] at h
      exact ((Bool.and_eq_true _ _).mp h).2
  · rw [nlOk_cons_ne hc] at h
    exact h

theorem nlOk_nl_head {d : Char} {t : Str} (h : nlOk ('\n' :: d :: t) = true) :
    isWs d = false ∧ isDigitC d = false := by
  rw [nlOk_nl_cons] at h
  have h1 := (Bool.and_eq_true _ _).mp h
  have h2 := (Bool.and_eq_true _ _).mp h1.1
  exact ⟨by simpa using h2.1, by simpa using h2.2⟩

theorem splitDelim_none {c : Char} {r : Str} (hws : isWs c = false)
    (hdig : isDigitC c = false) : splitDelim (c :: r) = none := by
  have h1 : (c :: r).takeWhile isWs = [] := by
    rw [List.takeWhile_cons, hws]
    simp
  have h2 : (c :: r).takeWhile isDigitC = [] := by
    rw [List.takeWhile_cons, hdig]
    simp
  unfold splitDelim lastNlInWsRun digitHeaderAhead
  rw [h1, h2]
  simp

theorem splitGo_nlOk {l : Str} : ∀ acc, nlOk l = true →
    splitGo acc 0 l = [acc.reverse ++ l] := by
  induction l with
  | nil =>
    intro acc _
    show [acc.reverse] = [acc.reverse ++ []]
    simp
  | cons c rest ih =>
    intro acc h
    by_cases hc : c = '\n'
    · subst hc
      cases rest with
      | nil =>
        exfalso
        have hfalse : nlOk ['\n'] = false := rfl
        rw [hfalse] at h
        exact absurd h (by simp)
      | cons d t =>
        obtain ⟨hws, hdig⟩ := nlOk_nl_head h
        show (match splitDelim (d :: t) with
          | some k => acc.reverse :: splitGo [] k (d :: t)
          | none => splitGo ('\n' :: acc) 0 (d :: t)) =
            [acc.reverse ++ '\n' :: d :: t]
        rw [splitDelim_none hws hdig]
        rw [ih ('\n' :: acc) (nlOk_tail h)]
        simp
    · have hst : splitGo acc 0 (c :: rest) = splitGo (c :: acc) 0 rest := by
        simp only [splitGo, if_neg hc]
      rw [hst]
      have h2 : nlOk rest = true := by
        rw [nlOk_cons_ne hc] at h
        exact h
      rw [ih (c :: acc) h2]
      simp

theorem noTripleNl_of_nlOk {l : Str} (h : nlOk l = true) : noTripleNl l = true := by
  induction l with
  | nil => rfl
  | cons c rest ih =>
    have hrest := ih (nlOk_tail h)
    by_cases hc : c = '\n'
    · subst hc
      cases rest with
      | nil => rfl
      | cons d t =>
        obtain ⟨hws, _⟩ := nlOk_nl_head h
        have hd : d ≠ '\n' := by
          intro he
          rw [he] at hws
          exact absurd hws (by decide)
        cases t with
        | nil => rfl
        | cons e t2 =>
          show (!('\n' = '\n' && d = '\n' && e = '\n') &&
            noTripleNl (d :: e :: t2)) = true
          simp only [Bool.and_eq_true, Bool.not_eq_true']
          exact ⟨by simp [hd], hrest⟩
    · exact noTripleNl_cons hc hrest

theorem insertOpt_append_last {x : Char × Str} {acc : List (Char × Str)}
    (h : ∀ y ∈ acc, y.1 < x.1) : insertOpt x acc = acc ++ [x] := by
  induction acc with
  | nil => rfl
  | cons y t ih =>
    unfold insertOpt
    rw [if_neg (by
      have hyx := h y (List.mem_cons_self y t)
      exact fun hlt => absurd hlt (not_lt_of_gt hyx))]
    rw [ih (fun z hz => h z (List.mem_cons_of_mem y hz))]
    rfl

theorem sortOptions_id {l : List (Char × Str)}
    (h : l.Pairwise (fun a b => a.1 < b.1)) : sortOptions l = l := by
  suffices haux : ∀ (l2 acc : List (Char × Str)),
      l2.Pairwise (fun a b => a.1 < b.1) →
      (∀ y ∈ acc, ∀ x ∈ l2, y.1 < x.1) →
      l2.foldl (fun acc x => insertOpt x acc) acc = acc ++ l2 by
    simpa using haux l [] h (by simp)
  intro l2
  induction l2 with
  | nil =>
    intro acc _ _
    simp
  | cons x t ih =>
    intro acc hp hy
    simp only [List.foldl_cons]
    have hins : insertOpt x acc = acc ++ [x] :=
      insertOpt_append_last (fun y hy2 => hy y hy2 x (List.mem_cons_self x t))
    rw [hins]
    rw [ih (acc ++ [x]) (List.pairwise_cons.mp hp).2 (by
      intro y hy2 z hz
      rcases List.mem_append.mp hy2 with h1 | h1
      · exact hy y h1 z (List.mem_cons_of_mem x hz)
      · rw [List.mem_singleton.mp h1]
        exact (List.pairwise_cons.mp hp).1 z hz)]
    simp

theorem mem_enumFrom_le (os : List Str) : ∀ (k : Nat) (p : Nat × Str),
    p ∈ os.enumFrom k → k ≤ p.1 ∧ p.1 < k + os.length := by
  induction os with
  | nil =>
    intro k p hp
    exact absurd hp (List.not_mem_nil p)
  | cons o t ih =>
    intro k p hp
    rw [List.enumFrom_cons] at hp
    rcases List.mem_cons.mp hp with h1 | h1
    · rw [h1]
      simp only [List.length_cons]
      omega
    · have := ih (k + 1) p h1
      simp only [List.length_cons]
      omega

theorem enumFrom_pairwise_fst (os : List Str) : ∀ k : Nat,
    (os.enumFrom k).Pairwise (fun a b => a.1 < b.1) := by
  induction os with
  | nil => intro k; exact List.Pairwise.nil
  | cons o t ih =>
    intro k
    rw [List.enumFrom_cons]
    refine List.Pairwise.cons ?_ (ih (k + 1))
    intro p hp
    have := (mem_enumFrom_le t (k + 1) p hp).1
    omega

theorem mem_enumFrom_snd (os : List Str) : ∀ (k : Nat) (p : Nat × Str),
    p ∈ os.enumFrom k → p.2 ∈ os := by
  induction os with
  | nil =>
    intro k p hp
    exact absurd hp (List.not_mem_nil p)
  | cons o t ih =>
    intro k p hp
    rw [List.enumFrom_cons] at hp
    rcases List.mem_cons.mp hp with h1 | h1
    · rw [h1]
      exact List.mem_cons_self o t
    · exact List.mem_cons_of_mem o (ih (k + 1) p h1)

theorem mem_answer {c : Char} {ci : Nat} {oci : Str}
    (h : c ∈ ("Answer: ".toList ++ letterOf ci :: ')' :: ' ' :: oci)) :
    c ∈ ("Answer: ".toList : Str) ∨ c = letterOf ci ∨ c = ')' ∨ c = ' ' ∨ c ∈ oci := by
  rcases List.mem_append.mp h with h1 | h1
  · exact Or.inl h1
  · rcases List.mem_cons.mp h1 with h2 | h2
    · exact Or.inr (Or.inl h2)
    · rcases List.mem_cons.mp h2 with h3 | h3
      · exact Or.inr (Or.inr (Or.inl h3))
      · rcases List.mem_cons.mp h3 with h4 | h4
        · exact Or.inr (Or.inr (Or.inr (Or.inl h4)))
        · exact Or.inr (Or.inr (Or.inr (Or.inr h4)))

theorem mem_lines {c : Char} {os : List Str} {k : Nat}
    (h : c ∈ ((os.enumFrom k).map (fun p => optLine p.1 p.2)).flatten) :
    (∃ j, j < k + os.length ∧ c = letterOf j) ∨ c = ')' ∨ c = ' ' ∨ c = '\n' ∨
      ∃ o ∈ os, c ∈ o := by
  rcases List.mem_flatten.mp h with ⟨ln, hln, hcln⟩
  rcases List.mem_map.mp hln with ⟨p, hp, hpe⟩
  have hb := mem_enumFrom_le os k p hp
  have hsnd := mem_enumFrom_snd os k p hp
  rw [← hpe] at hcln
  unfold optLine at hcln
  rcases List.mem_cons.mp hcln with h1 | h1
  · exact Or.inl ⟨p.1, hb.2, h1⟩
  · rcases List.mem_cons.mp h1 with h2 | h2
    · exact Or.inr (Or.inl h2)
    · rcases List.mem_cons.mp h2 with h3 | h3
      · exact Or.inr (Or.inr (Or.inl h3))
      · rcases List.mem_append.mp h3 with h4 | h4
        · exact Or.inr (Or.inr (Or.inr (Or.inr ⟨p.2, hsnd, h4⟩)))
        · rcases List.mem_singleton.mp h4 with h5
          exact Or.inr (Or.inr (Or.inr (Or.inl h5)))

theorem nlOk_lines (os : List Str) : ∀ (k : Nat) (tail : Str),
    k + os.length ≤ 26 →
    (∀ o ∈ os, '\n' ∉ o) →
    nlOk tail = true →
    (∀ d t2, tail = d :: t2 → isWs d = false ∧ isDigitC d = false) →
    tail ≠ [] →
    nlOk (('\n' :: ((os.enumFrom k).map (fun p => optLine p.1 p.2)).flatten) ++ tail)
      = true := by
  induction os with
  | nil =>
    intro k tail _ _ htail hhead hne
    simp only [List.enumFrom_nil, List.map_nil, List.flatten_nil, List.cons_append,
      List.nil_append]
    cases tail with
    | nil => exact absurd rfl hne
    | cons d t2 =>
      rw [nlOk_nl_cons]
      obtain ⟨hw, hd⟩ := hhead d t2 rfl
      simp [hw, hd, htail]
  | cons o os2 ih =>
    intro k tail hk hos htail hhead hne
    simp only [List.length_cons] at hk
    have hk25 : k ≤ 25 := by omega
    simp only [List.enumFrom_cons, List.map_cons, List.flatten_cons]
    have harg : ('\n' :: (optLine k o ++
          ((os2.enumFrom (k + 1)).map (fun p => optLine p.1 p.2)).flatten)) ++ tail =
        '\n' :: letterOf k :: ')' :: ' ' :: (o ++
          (('\n' :: ((os2.enumFrom (k + 1)).map (fun p => optLine p.1 p.2)).flatten)
            ++ tail)) := by
      simp [optLine]
    rw [harg]
    have hrest := ih (k + 1) tail (by omega)
      (fun o2 h2 => hos o2 (List.mem_cons_of_mem o h2)) htail hhead hne
    rw [nlOk_nl_cons]
    rw [nlOk_cons_ne (by
      rw [Ne, char_eq_iff, letterOf_toNat hk25]
      have h10 : ('\n').toNat = 10 := rfl
      omega)]
    rw [nlOk_cons_ne (by decide)]
    rw [nlOk_cons_ne (by decide)]
    rw [nlOk_append (hos o (List.mem_cons_self o os2)) hrest]
    simp [letterOf_not_ws hk25, letterOf_not_digit hk25]

/-- C6, amended: the round trip holds for clean questions.  For a stem and
options that are non-empty, single-line, free of carriage returns and of
surrounding whitespace, with the stem not starting with a digit, between two
and twenty-six options, and an in-range correct index, extracting from the
encoded text yields exactly the original question (label 1) and no skips. -/
theorem c6_amended (stem : Str) (os : List Str) (ci : Nat)
    (hstem : cleanField stem)
    (hdig : ∀ c, stem.head? = some c → isDigitC c = false)
    (hos : ∀ o ∈ os, cleanField o)
    (hlen2 : 2 ≤ os.length) (hlen26 : os.length ≤ 26)
    (hci : ci < os.length) :
    extract_questions_from_text
        (format_quiz_as_text (PollQ.mk stem os (some ci)) none) =
      ([⟨['1'], stem, os, ci⟩], []) := by
  obtain ⟨hstem1, hstem2, hstem3, hstem4, hstem5⟩ := hstem
  have hci25 : ci ≤ 25 := by omega
  have hosne : ∀ o ∈ os, o ≠ [] := fun o ho => (hos o ho).1
  have hosnl : ∀ o ∈ os, '\n' ∉ o := fun o ho => (hos o ho).2.1
  have hoscr : ∀ o ∈ os, '\r' ∉ o := fun o ho => (hos o ho).2.2.1
  have hoshead : ∀ o ∈ os, ∀ c, o.head? = some c → isWs c = false :=
    fun o ho => (hos o ho).2.2.2.1
  have hocimem : os[ci] ∈ os := List.getElem_mem hci
  have hoci1 : os[ci] ≠ [] := hosne _ hocimem
  have hoci2 : '\n' ∉ os[ci] := hosnl _ hocimem
  have hoci3 : '\r' ∉ os[ci] := hoscr _ hocimem
  have hoci5 : ∀ c, (os[ci]).getLast? = some c → isWs c = false :=
    (hos _ hocimem).2.2.2.2
  set oci : Str := os[ci] with hoci
  set A : Str := "Answer: ".toList ++ letterOf ci :: ')' :: ' ' :: oci with hA
  set J : Str := ((os.enumFrom 0).map (fun p => optLine p.1 p.2)).flatten with hJ
  set T : Str := stem ++ '\n' :: (J ++ A) with hT
  have henum : os.enum = os.enumFrom 0 := rfl
  have hgetci : os[ci]? = some oci := by
    rw [hoci]
    exact List.getElem?_eq_getElem hci
  have henc : format_quiz_as_text (PollQ.mk stem os (some ci)) none = T := by
    simp only [format_quiz_as_text, tryFormatQuiz, hgetci, Option.getD_some]
    rw [hT, hJ, hA, henum]
    simp [optLine]
  rw [henc]
  obtain ⟨o0, os1, hos01⟩ : ∃ o0 os1, os = o0 :: os1 := by
    cases os with
    | nil => exact absurd hlen2 (by simp)
    | cons a b => exact ⟨a, b, rfl⟩
  obtain ⟨Z, hZ⟩ : ∃ Z, J ++ A = letterOf 0 :: ')' :: ' ' :: Z := by
    refine ⟨(o0 ++ ['\n']) ++
      (((os1.enumFrom 1).map (fun p => optLine p.1 p.2)).flatten ++ A), ?_⟩
    rw [hJ, hos01, List.enumFrom_cons]
    simp [optLine]
  have hAne : A ≠ [] := by rw [hA]; simp
  have hAnl : '\n' ∉ A := by
    rw [hA]
    intro hm
    rcases mem_answer hm with h1 | h1 | h1 | h1 | h1
    · exact absurd h1 (by decide)
    · exact letterOf_ne hci25 (by decide) h1.symm
    · exact absurd h1 (by decide)
    · exact absurd h1 (by decide)
    · exact hoci2 h1
  have hJAh : ∀ c, (J ++ A).head? = some c → isWs c = false := by
    intro c hc
    rw [hZ] at hc
    simp only [List.head?_cons, Option.some_inj] at hc
    rw [← hc]
    exact letterOf_not_ws (by omega)
  have hJAl : ∀ c, (J ++ A).getLast? = some c → isWs c = false := by
    have h1 : (J ++ A).getLast? = A.getLast? :=
      List.getLast?_append_of_ne_nil _ hAne
    have h2 : A.getLast? = oci.getLast? := by
      rw [hA]
      rw [show ("Answer: ".toList ++ letterOf ci :: ')' :: ' ' :: oci) =
        ("Answer: ".toList ++ [letterOf ci, ')', ' ']) ++ oci from by simp]
      exact List.getLast?_append_of_ne_nil _ hoci1
    intro c hc
    rw [h1, h2] at hc
    exact hoci5 c hc
  have hstripJA : strip (J ++ A) = J ++ A := strip_eq_self hJAh hJAl
  have hTne2 : T ≠ [] := by
    rw [hT]
    simp
  have hThead : ∀ c, T.head? = some c → isWs c = false ∧ isDigitC c = false := by
    intro c hc
    rw [hT] at hc
    rcases hs : stem with _ | ⟨s0, st⟩
    · exact absurd hs hstem1
    · rw [hs] at hc
      simp only [List.cons_append, List.head?_cons, Option.some_inj] at hc
      rw [← hc]
      exact ⟨hstem4 s0 (by rw [hs]; rfl), hdig s0 (by rw [hs]; rfl)⟩
  have hTlast : ∀ c, T.getLast? = some c → isWs c = false := by
    intro c hc
    rw [hT] at hc
    rw [List.getLast?_append_of_ne_nil _ (by simp)] at hc
    rw [show ('\n' :: (J ++ A)) = ['\n'] ++ (J ++ A) from rfl] at hc
    rw [List.getLast?_append_of_ne_nil _ (by rw [hZ]; simp)] at hc
    exact hJAl c hc
  have hTstrip : strip T = T := strip_eq_self (fun c hc => (hThead c hc).1) hTlast
  have hTcr : '\r' ∉ T := by
    rw [hT]
    intro hm
    rcases List.mem_append.mp hm with h1 | h1
    · exact hstem3 h1
    · rcases List.mem_cons.mp h1 with h2 | h2
      · exact absurd h2 (by decide)
      · rcases List.mem_append.mp h2 with h3 | h3
        · rw [hJ] at h3
          rcases mem_lines h3 with ⟨j, hj, hje⟩ | h4 | h4 | h4 | ⟨o, ho, hco⟩
          · exact letterOf_ne (by omega) (by decide) hje.symm
          · exact absurd h4 (by decide)
          · exact absurd h4 (by decide)
          · exact absurd h4 (by decide)
          · exact hoscr o ho hco
        · rw [hA] at h3
          rcases mem_answer h3 with h4 | h4 | h4 | h4 | h4
          · exact absurd h4 (by decide)
          · exact letterOf_ne hci25 (by decide) h4.symm
          · exact absurd h4 (by decide)
          · exact absurd h4 (by decide)
          · exact hoci3 h4
  have hAhead : ∀ d t2, A = d :: t2 → isWs d = false ∧ isDigitC d = false := by
    intro d t2 h
    rw [hA] at h
    have h0 : ("Answer: ".toList ++ letterOf ci :: ')' :: ' ' :: oci) =
        'A' :: ("nswer: ".toList ++ letterOf ci :: ')' :: ' ' :: oci) := rfl
    rw [h0] at h
    have h2 : ('A' : Char) = d := (List.cons.inj h).1
    rw [← h2]
    exact ⟨by decide, by decide⟩
  have hAnlOk : nlOk A = true := nlOk_noNl hAnl
  have hTnlOk : nlOk T = true := by
    rw [hT]
    apply nlOk_append hstem2
    have h1 := nlOk_lines os 0 A (by omega) hosnl hAnlOk hAhead hAne
    rw [hJ, ← List.cons_append]
    exact h1
  have hnorm : normalizeText T = T := by
    have h1 : collapseNl T = T := by
      have h2 := collapseGo_id T 0 (by omega)
        (by simpa using noTripleNl_of_nlOk hTnlOk)
      simpa [collapseNl] using h2
    unfold normalizeText
    rw [h1, crlfSub_id hTcr]
  have hsplit : splitBlocks T = [T] := by
    unfold splitBlocks
    simpa using @splitGo_nlOk T [] hTnlOk
  have hmq : matchQNum T = none :=
    matchQNum_none (fun c hc => (hThead c hc).1) (fun c hc => (hThead c hc).2)
  have hqt : questionTextOf T = T := by
    unfold questionTextOf
    rw [hmq]
    exact hTstrip
  have hfos : findOptionsStart T = some stem.length := by
    rw [hT]
    rw [show ('\n' :: (J ++ A)) = '\n' :: letterOf 0 :: ')' :: (' ' :: Z) from by
      rw [hZ]]
    exact findOptionsStart_at hstem2 (letterOf_isAlpha (by omega)) (' ' :: Z)
  set M : List (Char × Str) :=
    (os.enumFrom 0).map (fun p => (letterOf p.1, p.2)) with hM
  have htail2 : ∀ d r, A = d :: ')' :: r → isAlphaAZ d = false := by
    intro d r h
    rw [hA] at h
    have h0 : ("Answer: ".toList ++ letterOf ci :: ')' :: ' ' :: oci) =
        'A' :: 'n' :: ("swer: ".toList ++ letterOf ci :: ')' :: ' ' :: oci) := rfl
    rw [h0] at h
    have h1 := (List.cons.inj h).2
    have h2 := (List.cons.inj h1).1
    exact absurd h2 (by decide)
  have hscanJA : scanOptionsGo 0 ('\n' :: (J ++ A)) = M := by
    rw [hJ, hM, ← List.cons_append]
    exact scan_lines os 0 A (by omega)
      (fun o ho => ⟨hosne o ho, hosnl o ho, hoshead o ho⟩) hAnl htail2
  have hscreen : scanOptions T = M := by
    show scanOptionsGo 0 T = M
    rw [hT, scanOptions_prefix hstem2]
    exact hscanJA
  have hbm : blockMatches T stem.length = M := by
    unfold blockMatches optionsTextOf
    rw [hqt]
    have hdrop : T.drop stem.length = '\n' :: (J ++ A) := by
      rw [hT]
      exact List.drop_left stem _
    rw [hdrop]
    have hstrip2 : strip ('\n' :: (J ++ A)) = J ++ A := by
      have h5 := hstripJA
      unfold strip at h5 ⊢
      rw [List.dropWhile_cons_of_pos (by decide)]
      rw [dropWhile_eq_self_of_head hJAh]
      rw [dropWhile_eq_self_of_head hJAh] at h5
      exact h5
    rw [hstrip2]
    exact hscanJA
  have hfa : findAnswer T = some (letterOf ci) := by
    rw [hT, findAnswer_prefix hstem2, ← List.cons_append, hJ]
    rw [findAnswer_lines os 0 A (by omega) hosnl]
    rw [hA]
    exact findAnswer_answerLine hci25 oci
  have hMlen : M.length = os.length := by
    rw [hM]
    simp
  have hpw : M.Pairwise (fun a b => a.1 < b.1) := by
    rw [hM, List.pairwise_map]
    refine List.Pairwise.imp_of_mem ?_ (enumFrom_pairwise_fst os 0)
    intro a b ha hb hlt
    have hb2 := (mem_enumFrom_le os 0 b hb).2
    exact letterOf_lt hlt (by omega)
  have hsort : sortOptions M = M := sortOptions_id hpw
  have hopts : M.map (fun p => strip p.2) = os := by
    rw [hM, List.map_map]
    have hcomp : ((fun (p : Char × Str) => strip p.2) ∘
        (fun (p : Nat × Str) => (letterOf p.1, p.2))) =
        (fun (p : Nat × Str) => strip p.2) := rfl
    rw [hcomp]
    rw [show (fun (p : Nat × Str) => strip p.2) = (strip ∘ Prod.snd) from rfl]
    rw [← List.map_map, List.enumFrom_map_snd]
    have h5 : ∀ o ∈ os, strip o = id o :=
      fun o ho => strip_eq_self (hoshead o ho) ((hos o ho).2.2.2.2)
    rw [List.map_congr_left h5, List.map_id]
  have hlow : lowerC (letterOf ci) = letterOf ci := letterOf_lower hci25
  have htn : (letterOf ci).toNat = 97 + ci := letterOf_toNat hci25
  have hq1 : questionNumOf 0 T = ['1'] := by
    unfold questionNumOf
    rw [hmq]
    rfl
  have hq2 : strip ((questionTextOf T).take stem.length) = stem := by
    rw [hqt, hT, List.take_left]
    exact strip_eq_self hstem4 hstem5
  have hq3 : (sortOptions (blockMatches T stem.length)).map (fun p => strip p.2)
      = os := by
    rw [hbm, hsort]
    exact hopts
  have hq4 : ((((lowerC (letterOf ci)).toNat : Int) - 97)).toNat = ci := by
    rw [hlow, htn]
    omega
  have hacc : blockOutcome 0 T = .accepted ⟨['1'], stem, os, ci⟩ := by
    apply blockOutcome_accept_iff.mpr
    refine ⟨letterOf ci, stem.length, ?_, ?_, hfa, ?_, ?_, ?_, ?_, ?_⟩
    · rw [hTstrip]
      exact hTne2
    · rw [hscreen, hMlen]
      omega
    · rw [hqt]
      exact hfos
    · rw [hbm, hMlen]
      omega
    · rw [hlow, htn, hbm, hMlen]
      omega
    · rw [hlow, htn, hbm, hsort, hopts]
      constructor <;> omega
    · rw [hq1, hq2, hq3, hq4]
  have hpp : primaryPass T = ⟨[⟨['1'], stem, os, ci⟩], [stem.take 50], []⟩ := by
    unfold primaryPass
    rw [hsplit]
    have he : ([T] : List Str).enum = [(0, T)] := rfl
    rw [he]
    simp only [List.foldl_cons, List.foldl_nil]
    unfold processBlock
    rw [hacc]
    simp
  simp only [extract_questions_from_text]
  rw [hnorm, hpp]
  simp

/-- C6 witness: the round trip at a concrete clean question. -/
theorem c6_witness :
    extract_questions_from_text
        (format_quiz_as_text
          (PollQ.mk ("Q?".toList) [("Paris".toList), ("Lyon".toList)] (some 0))
          none) =
      ([⟨['1'], "Q?".toList, [("Paris".toList), ("Lyon".toList)], 0⟩], []) :=
  c6_amended ("Q?".toList) [("Paris".toList), ("Lyon".toList)] 0
    (by decide) (by decide) (by decide) (by decide) (by decide) (by decide)
